import Mathlib

/-!
Verification development for the curlmin repository.

The repository reduces a textual curl invocation to a minimal set of headers,
cookies and query parameters that still produces an equivalent HTTP response.
We embed the Go sources shallowly:

* Go strings are modelled as lists of characters (`GoStr`).
* The external shell library (mvdan.cc/sh) is modelled by a quote-aware
  whitespace tokenizer: a simple command is a list of word tokens, a word is
  printed back exactly as written, and word separators are space, tab and
  newline.  Comments and multi-line folding of the preprocessor are modelled
  by re-joining the tokens on single spaces.
* net/url is modelled by splitting a URL at its first `#` and `?`, by a
  query-string parser that splits on `&`/`=` with percent-unescaping, and by
  an encoder that escapes the separator, quote and control characters and
  emits keys in sorted order.  (Go escapes a larger character set; only the
  characters that interact with the parsing done in this repository are
  modelled.)
* The external curl process (`executeCurlCommand`) is an oracle parameter
  `exec : GoStr → Option Response`; `none` models a nonzero-exit execution
  error.  The temporary capture files and the extra capture flags live
  behind this boundary.

Definitions follow `src/pkg/curlmin/curl_parser.go` and the current revision
of the minimizer (`Options` with the five comparison flags,
`compareResponses` built from the comparison map, `testModification`).
-/

/-- Go strings modelled as character lists. -/
abbrev GoStr := List Char

/-- Coerce a Lean string literal to the Go string model. -/
def gs (s : String) : GoStr := s.toList

/-- Word-separator characters of the modelled shell tokenizer; also the set
trimmed by the model of `strings.TrimSpace` (Go additionally trims a few rare
whitespace characters such as vertical tab, which we do not model). -/
def isSepChar (c : Char) : Bool := c = ' ' || c = '\t' || c = '\n'

/-- Whitespace test used by the model of `strings.Fields`. -/
def isSpaceGo (c : Char) : Bool :=
  c = ' ' || c = '\t' || c = '\n' || c = '\r' || c = '\x0b' || c = '\x0c'

/-- Characters trimmed by `strings.Trim(s, "'\"")`. -/
def isQuoteChar (c : Char) : Bool := c = '\'' || c = '"'

/-- Drop matching characters from the end of a list. -/
def dropEnd (p : Char → Bool) (s : GoStr) : GoStr := (s.reverse.dropWhile p).reverse

/-- Model of `strings.TrimSpace`. -/
def trimSpaceGo (s : GoStr) : GoStr := dropEnd isSepChar (s.dropWhile isSepChar)

/-- Model of `strings.Trim(s, "'\"")`. -/
def trimQuotesGo (s : GoStr) : GoStr := dropEnd isQuoteChar (s.dropWhile isQuoteChar)

/-- Model of `strings.TrimPrefix`. -/
def trimPre (p s : GoStr) : GoStr := if p.isPrefixOf s then s.drop p.length else s

/-- Model of `strings.HasPrefix (s, "-")`. -/
def startsDash (s : GoStr) : Bool := ['-'].isPrefixOf s

/-- Model of `strings.Contains`. -/
def containsSub (hay pat : GoStr) : Bool := hay.tails.any (fun t => pat.isPrefixOf t)

/-- Quote-state step of the tokenizer: entering, staying in, or leaving a
single- or double-quoted region. -/
def qstep (q : Option Char) (c : Char) : Option Char :=
  match q with
  | none => if isQuoteChar c then some c else none
  | some x => if c = x then none else some x

/-- Worker of the tokenizer: input characters, current quote state, current
token (reversed is not used; kept in order), accumulated tokens.  Fails on an
unterminated quote, the way the shell parser rejects such input. -/
def tokAux : List Char → Option Char → GoStr → List GoStr → Option (List GoStr)
  | [], none, cur, acc => some (if cur.isEmpty then acc else acc ++ [cur])
  | [], some _, _, _ => none
  | c :: rest, none, cur, acc =>
    if isSepChar c then tokAux rest none [] (if cur.isEmpty then acc else acc ++ [cur])
    else tokAux rest (qstep none c) (cur ++ [c]) acc
  | c :: rest, some x, cur, acc => tokAux rest (qstep (some x) c) (cur ++ [c]) acc

/-- Model of shell word-splitting of one command line: tokens are maximal
runs of non-separator characters, where separators inside quotes do not
split.  Each token keeps its quotes, as the syntax printer prints words
exactly as written. -/
def tokenizeGo (s : GoStr) : Option (List GoStr) := tokAux s none [] []

/-- Join a token list with a separator (used for `; ` cookie re-joining,
`&` query assembly and single-space command serialization). -/
def joinWith (sep : GoStr) : List GoStr → GoStr
  | [] => []
  | [x] => x
  | x :: y :: rest => x ++ sep ++ joinWith sep (y :: rest)

/-- The structured invocation: the argument words of the parsed call
expression (`CurlCommand.Command.Args` in the source). -/
structure CurlCommand where
  args : List GoStr
deriving Repr, DecidableEq

/-- Model of `PreprocessCurlCommand`: parse the script and re-print it on a
single line (comment stripping is not modelled; a parse failure is an
error, after which the caller falls back to the original text). -/
def PreprocessCurlCommand (s : GoStr) : Except GoStr GoStr :=
  match tokenizeGo s with
  | none => .error (gs "failed to parse shell script")
  | some toks => .ok (joinWith (gs " ") toks)

/-- The input normalization of `ParseCurlCommand`: trim surrounding
whitespace and prepend `curl ` when the text does not already start with
it. -/
def normalizeCurl (s : GoStr) : GoStr :=
  let s1 := trimSpaceGo s
  if (gs "curl ").isPrefixOf s1 then s1 else gs "curl " ++ s1

/-- Model of `ParseCurlCommand`: trim, prepend `curl ` when absent, tokenize,
check the statement list and the first argument.  A failed tokenization is
the shell parse error; an empty token list is `no statements found`; a first
token without `curl` is `not a curl command`. -/
def ParseCurlCommand (s : GoStr) : Except GoStr CurlCommand :=
  match tokenizeGo (normalizeCurl s) with
  | none => .error (gs "failed to parse shell command")
  | some toks =>
    match toks with
    | [] => .error (gs "no statements found in command")
    | first :: _ =>
      if containsSub (first.map Char.toLower) (gs "curl") then .ok ⟨toks⟩
      else .error (gs "not a curl command")

/-- Model of `CurlCommand.ToString`: the printer renders the single statement
as its space-joined words followed by a newline. -/
def CurlCommand.ToString (c : CurlCommand) : GoStr := joinWith (gs " ") c.args ++ ['\n']

/-- A word is the header flag when its trimmed text is `-H` or `--header`. -/
def isHeaderFlag (a : GoStr) : Bool :=
  trimSpaceGo a = gs "-H" || trimSpaceGo a = gs "--header"

/-- A word is the cookie flag when its trimmed text is `-b` or `--cookie`. -/
def isCookieFlag (a : GoStr) : Bool :=
  trimSpaceGo a = gs "-b" || trimSpaceGo a = gs "--cookie"

/-- A header value designates a cookie carrier when, after quote-trimming and
lowercasing, it starts with `cookie:`. -/
def isCookieHeaderVal (v : GoStr) : Bool :=
  (gs "cookie:").isPrefixOf ((trimQuotesGo v).map Char.toLower)

/-- Model of `FindHeaderArgs`: indices after 0 whose word is a header flag
and which are followed by another argument. -/
def CurlCommand.FindHeaderArgs (c : CurlCommand) : List Nat :=
  (List.range c.args.length).filter (fun i =>
    decide (0 < i) && isHeaderFlag (c.args.getD i []) && decide (i + 1 < c.args.length))

/-- Model of `FindCookieArgs`: indices after 0 carrying either a cookie flag
with a following value, or a header flag whose following value is a cookie
carrier. -/
def CurlCommand.FindCookieArgs (c : CurlCommand) : List Nat :=
  (List.range c.args.length).filter (fun i =>
    decide (0 < i) &&
      (isCookieFlag (c.args.getD i []) && decide (i + 1 < c.args.length) ||
        isHeaderFlag (c.args.getD i []) && decide (i + 1 < c.args.length) &&
          isCookieHeaderVal (c.args.getD (i + 1) [])))

/-- Control characters rejected by the model of `url.Parse`. -/
def isCtlChar (c : Char) : Bool := decide (c.toNat < 0x20) || decide (c.toNat = 0x7f)

/-- Model of the success of `url.Parse`: Go accepts any string free of ASCII
control characters here (escape-validity details of net/url are not
modelled). -/
def urlParseOkGo (s : GoStr) : Bool := !(s.any isCtlChar)

/-- Model of `FindURLArg`: scan the non-first, non-last words for one that,
after quote-trimming, is not a flag, does not follow a flag, and parses as a
URL; otherwise fall back to the last word when it is not a flag and parses
as a URL. -/
def CurlCommand.FindURLArg (c : CurlCommand) : Except GoStr Nat :=
  let n := c.args.length
  match (List.range n).find? (fun i =>
    decide (0 < i) && decide (i + 1 < n) &&
      (let argStr := trimQuotesGo (c.args.getD i [])
       let prevStr := trimQuotesGo (c.args.getD (i - 1) [])
       !startsDash argStr && !startsDash prevStr && urlParseOkGo argStr)) with
  | some i => .ok i
  | none =>
    if 1 < n then
      let argStr := trimQuotesGo (c.args.getD (n - 1) [])
      if !startsDash argStr && urlParseOkGo argStr then .ok (n - 1)
      else .error (gs "could not find URL in curl command")
    else .error (gs "could not find URL in curl command")

/-- URL model: the text before the query, the raw query (after the first `?`
and before any fragment), and the fragment (after the first `#`). -/
structure UrlModel where
  beforeQuery : GoStr
  rawQuery : GoStr
  fragment : GoStr
deriving Repr, DecidableEq

/-- Split at the first occurrence of a character: the part before it, and
the part after it when present. -/
def cutAt (sep : Char) : GoStr → GoStr × Option GoStr
  | [] => ([], none)
  | c :: rest =>
    if c = sep then ([], some rest)
    else
      let r := cutAt sep rest
      (c :: r.1, r.2)

/-- Model of `url.Parse` on strings free of control characters. -/
def urlParseGo (s : GoStr) : Option UrlModel :=
  if s.any isCtlChar then none
  else
    let pf := cutAt '#' s
    let bq := cutAt '?' pf.1
    some ⟨bq.1, bq.2.getD [], pf.2.getD []⟩

/-- Model of `url.URL.String`: reassemble the parts, omitting an empty query
and an empty fragment. -/
def urlToString (u : UrlModel) : GoStr :=
  u.beforeQuery ++ (if u.rawQuery = [] then [] else '?' :: u.rawQuery) ++
    (if u.fragment = [] then [] else '#' :: u.fragment)

/-- Model of `url.Values`: an association list from a key to its values, in
first-encounter order, with unique keys. -/
abbrev Values := List (GoStr × List GoStr)

/-- Append a key/value pair the way `m[key] = append(m[key], value)` does. -/
def valuesAdd (vs : Values) (k v : GoStr) : Values :=
  if vs.any (fun kv => kv.1 = k) then
    vs.map (fun kv => if kv.1 = k then (kv.1, kv.2 ++ [v]) else kv)
  else vs ++ [(k, [v])]

/-- Model of `url.Values.Del`. -/
def valuesDel (vs : Values) (k : GoStr) : Values := vs.filter (fun kv => kv.1 ≠ k)

/-- Characters percent-escaped by the modelled query encoder: the query
separators, the shell quotes, percent and plus themselves, and control
characters.  Go's `url.QueryEscape` escapes every character outside its
unreserved set; this model escapes the subset that the repository's own
parsing is sensitive to. -/
def escSpecials : List Char := ['%', '&', '=', ';', '#', '?', '+', '\'', '"']

/-- Whether the query encoder escapes this character. -/
def shouldEsc (c : Char) : Bool :=
  escSpecials.contains c || decide (c.toNat < 0x20) || decide (c.toNat = 0x7f)

/-- Upper-case hexadecimal digit. -/
def hexDig (n : Nat) : Char := if n < 10 then Char.ofNat (48 + n) else Char.ofNat (55 + n)

/-- Escape one character of a query key or value; a space becomes `+`. -/
def escChar (c : Char) : GoStr :=
  if c = ' ' then ['+']
  else if shouldEsc c then ['%', hexDig (c.toNat / 16), hexDig (c.toNat % 16)]
  else [c]

/-- Model of `url.QueryEscape` (see `escSpecials`). -/
def escQ (s : GoStr) : GoStr := s.foldr (fun c acc => escChar c ++ acc) []

/-- Value of a hexadecimal digit. -/
def hexVal (c : Char) : Option Nat :=
  if 48 ≤ c.toNat ∧ c.toNat ≤ 57 then some (c.toNat - 48)
  else if 65 ≤ c.toNat ∧ c.toNat ≤ 70 then some (c.toNat - 55)
  else if 97 ≤ c.toNat ∧ c.toNat ≤ 102 then some (c.toNat - 87)
  else none

/-- Model of `url.QueryUnescape`: decode `%XX` pairs, turn `+` into a space,
fail on a malformed escape. -/
def unescQ : GoStr → Option GoStr
  | [] => some []
  | c :: rest =>
    if c = '%' then
      match rest with
      | h1 :: h2 :: t =>
        match hexVal h1, hexVal h2 with
        | some a, some b => (unescQ t).map (fun r => Char.ofNat (16 * a + b) :: r)
        | _, _ => none
      | _ => none
    else if c = '+' then (unescQ rest).map (fun r => ' ' :: r)
    else (unescQ rest).map (fun r => c :: r)

/-- Split on every occurrence of a character (model of `strings.Split` with a
one-character separator). -/
def splitOnChar (sep : Char) (s : GoStr) : List GoStr :=
  s.foldr (fun c acc =>
    if c = sep then [] :: acc
    else match acc with
      | h :: t => (c :: h) :: t
      | [] => [[c]]) [[]]

/-- Parse one `key=value` query segment; a semicolon or a bad escape is the
error that makes `url.ParseQuery` report failure. -/
def parseSeg (seg : GoStr) : Option (GoStr × GoStr) :=
  if seg.contains ';' then none
  else
    let kv := cutAt '=' seg
    match unescQ kv.1, unescQ (kv.2.getD []) with
    | some k, some v => some (k, v)
    | _, _ => none

/-- Model of `url.ParseQuery`: split on `&`, skip empty segments, accumulate
pairs; any segment error makes the whole parse fail (the callers in this
repository abort on a non-nil error, discarding the partial map). -/
def parseQueryGo (s : GoStr) : Option Values :=
  if s = [] then some []
  else (splitOnChar '&' s).foldl (fun acc seg =>
    match acc with
    | none => none
    | some vs =>
      if seg = [] then some vs
      else match parseSeg seg with
        | none => none
        | some kv => some (valuesAdd vs kv.1 kv.2)) (some [])

/-- Byte-wise string order used by the sort in `url.Values.Encode`. -/
def goStrLe : GoStr → GoStr → Bool
  | [], _ => true
  | _ :: _, [] => false
  | x :: xs, y :: ys => if x = y then goStrLe xs ys else decide (x.toNat < y.toNat)

/-- Insertion into a sorted key list. -/
def insertSorted (k : GoStr) : List GoStr → List GoStr
  | [] => [k]
  | x :: xs => if goStrLe k x then k :: x :: xs else x :: insertSorted k xs

/-- Sort the key list (model of `sort.Strings` inside `Encode`). -/
def sortKeys (ks : List GoStr) : List GoStr := ks.foldr insertSorted []

/-- Look a key up in a `Values` list. -/
def valuesGet (vs : Values) (k : GoStr) : List GoStr :=
  match vs.find? (fun kv => kv.1 = k) with
  | some kv => kv.2
  | none => []

/-- The escaped `key=value` segments of an encoding, one per value, in the
order of the given key list. -/
def querySegs (vs : Values) (ks : List GoStr) : List GoStr :=
  ks.foldr (fun k acc => (valuesGet vs k).map (fun v => escQ k ++ '=' :: escQ v) ++ acc) []

/-- Model of `url.Values.Encode`: escaped `key=value` segments joined by `&`,
keys in sorted order. -/
def encodeValues (vs : Values) : GoStr :=
  joinWith ['&'] (querySegs vs (sortKeys (vs.map (fun kv => kv.1))))

/-- Model of `FindQueryParams`: the first value of every key of the URL's
query, empty when there is no query string. -/
def CurlCommand.FindQueryParams (c : CurlCommand) : Except GoStr (List (GoStr × GoStr)) :=
  match c.FindURLArg with
  | .error e => .error e
  | .ok urlIndex =>
    let urlStr := trimQuotesGo (c.args.getD urlIndex [])
    match urlParseGo urlStr with
    | none => .error (gs "url parse error")
    | some parsedURL =>
      if parsedURL.rawQuery = [] then .ok []
      else match parseQueryGo parsedURL.rawQuery with
        | none => .error (gs "query parse error")
        | some query =>
          .ok ((query.filter (fun kv => kv.2 ≠ [])).map (fun kv => (kv.1, kv.2.headD [])))

/-- Model of `RemoveArg`: out-of-range indices (including 0, the program
name) are a no-op; a flag word followed by a non-flag word is removed
together with its value; otherwise only the single word is removed. -/
def CurlCommand.RemoveArg (c : CurlCommand) (index : Nat) : CurlCommand :=
  if index < 1 || c.args.length ≤ index then c
  else if index + 1 < c.args.length
      && startsDash (c.args.getD index []) && !startsDash (c.args.getD (index + 1) []) then
    ⟨c.args.take index ++ c.args.drop (index + 2)⟩
  else ⟨c.args.take index ++ c.args.drop (index + 1)⟩

/-- Wrap a serialized value in single quotes, as the rewritten word literals
`'...'` are built in the source. -/
def quoteSingle (s : GoStr) : GoStr := '\'' :: s ++ ['\'']

/-- Model of `RemoveQueryParam`: delete the key from the URL's query,
re-encode, and rewrite the URL word as a quoted literal. -/
def CurlCommand.RemoveQueryParam (c : CurlCommand) (param : GoStr) : Except GoStr CurlCommand :=
  match c.FindURLArg with
  | .error e => .error e
  | .ok urlIndex =>
    let urlStr := trimQuotesGo (c.args.getD urlIndex [])
    match urlParseGo urlStr with
    | none => .error (gs "url parse error")
    | some parsedURL =>
      if parsedURL.rawQuery = [] then .ok c
      else match parseQueryGo parsedURL.rawQuery with
        | none => .error (gs "query parse error")
        | some query =>
          let newURL := { parsedURL with rawQuery := encodeValues (valuesDel query param) }
          .ok ⟨c.args.set urlIndex (quoteSingle (urlToString newURL))⟩

/-- Model of `parseCookieString`: split on `;`, trim each entry, keep the
trimmed well-formed (`name=value`) entries whose name differs from the one
being removed, re-join with `; `; report whether nothing is left. -/
def parseCookieString (cookieStr cookieName : GoStr) : GoStr × Bool :=
  let newCookies := (splitOnChar ';' cookieStr).foldl (fun acc entry =>
    let entry := trimSpaceGo entry
    if entry = [] then acc
    else match (cutAt '=' entry).2 with
      | some _ =>
        if trimSpaceGo (cutAt '=' entry).1 ≠ cookieName then acc ++ [entry] else acc
      | none => acc) []
  if newCookies = [] then ([], true)
  else (joinWith (gs "; ") newCookies, false)

/-- Shared tail of `RemoveCookieFromArg` once the carrier text has been
extracted: remove the named cookie, drop the whole argument when the carrier
becomes empty, otherwise rewrite the value word as a quoted literal. -/
def removeCookieCore (c : CurlCommand) (argIndex : Nat) (cookieName : GoStr)
    (isHeader : Bool) (cookieStr : GoStr) : CurlCommand :=
  let r := parseCookieString cookieStr cookieName
  if r.2 then c.RemoveArg argIndex
  else
    let value := if isHeader then gs "'Cookie: " ++ r.1 ++ ['\''] else quoteSingle r.1
    ⟨c.args.set (argIndex + 1) value⟩

/-- Model of `RemoveCookieFromArg`: reject an index below 1 or without a
following value; for a header carrier require the `cookie:` prefix (after
lowercasing) and strip only the two exact spellings `Cookie:`/`cookie:`. -/
def CurlCommand.RemoveCookieFromArg (c : CurlCommand) (argIndex : Nat) (cookieName : GoStr)
    (isHeader : Bool) : Except GoStr CurlCommand :=
  if argIndex < 1 || c.args.length ≤ argIndex + 1 then .error (gs "invalid argument index")
  else
    let cookieStr := trimQuotesGo (c.args.getD (argIndex + 1) [])
    if isHeader then
      if !(gs "cookie:").isPrefixOf (cookieStr.map Char.toLower) then
        .error (gs "not a cookie header")
      else
        .ok (removeCookieCore c argIndex cookieName true
          (trimPre (gs "cookie:") (trimPre (gs "Cookie:") cookieStr)))
    else .ok (removeCookieCore c argIndex cookieName false cookieStr)

/-- HTTP response captured by one oracle execution. -/
structure Response where
  statusCode : Int
  body : GoStr
deriving Repr, DecidableEq

/-- The minimizer options (current revision, with the five comparison
flags). -/
structure Options where
  minimizeHeaders : Bool
  minimizeCookies : Bool
  minimizeParams : Bool
  verbose : Bool
  compareStatusCode : Bool
  compareBodyContent : Bool
  compareWordCount : Bool
  compareLineCount : Bool
  compareByteCount : Bool
deriving Repr, DecidableEq

/-- Number of whitespace-delimited fields of a body (model of
`len(strings.Fields(s))`). -/
def fieldsCount (s : GoStr) : Nat :=
  (s.foldl (fun (st : Nat × Bool) c =>
    if isSpaceGo c then (st.1, false)
    else if st.2 then st else (st.1 + 1, true)) (0, false)).1

/-- Number of newline-delimited segments (model of
`len(strings.Split(s, "\n"))`). -/
def linesCount (s : GoStr) : Nat := s.count '\n' + 1

/-- Byte length of a body (model of Go `len` on a string). -/
def byteLen (s : GoStr) : Nat := (s.map Char.utf8Size).sum

/-- Status-code comparison. -/
def cmpStatus (r1 r2 : Response) : Bool := r1.statusCode == r2.statusCode

/-- Body-content comparison; the source compares MD5 digests of the bodies,
which we model as content equality. -/
def cmpBody (r1 r2 : Response) : Bool := r1.body == r2.body

/-- Word-count comparison. -/
def cmpWords (r1 r2 : Response) : Bool := fieldsCount r1.body == fieldsCount r2.body

/-- Line-count comparison. -/
def cmpLines (r1 r2 : Response) : Bool := linesCount r1.body == linesCount r2.body

/-- Byte-count comparison. -/
def cmpBytes (r1 r2 : Response) : Bool := byteLen r1.body == byteLen r2.body

/-- Model of `compareResponses` (the comparison-map revision): when no
comparison option is selected, body content is enabled; then every enabled
comparison must agree.  The Go map iteration order is arbitrary, which is
immaterial for this conjunction. -/
def compareResponses (o : Options) (r1 r2 : Response) : Bool :=
  let anyEnabled := o.compareStatusCode || o.compareBodyContent || o.compareWordCount
    || o.compareLineCount || o.compareByteCount
  let bodyEnabled := o.compareBodyContent || !anyEnabled
  (!o.compareStatusCode || cmpStatus r1 r2) &&
  (!bodyEnabled || cmpBody r1 r2) &&
  (!o.compareWordCount || cmpWords r1 r2) &&
  (!o.compareLineCount || cmpLines r1 r2) &&
  (!o.compareByteCount || cmpBytes r1 r2)

/-- The five comparison predicates selectable in the equivalence check. -/
inductive CmpKind
  | status
  | body
  | words
  | lines
  | bytes
deriving Repr, DecidableEq

/-- Whether an options configuration enables a comparison predicate. -/
def kindEnabled (o : Options) : CmpKind → Bool
  | .status => o.compareStatusCode
  | .body => o.compareBodyContent
  | .words => o.compareWordCount
  | .lines => o.compareLineCount
  | .bytes => o.compareByteCount

/-- The comparison predicate of each kind. -/
def kindAgrees : CmpKind → Response → Response → Bool
  | .status => cmpStatus
  | .body => cmpBody
  | .words => cmpWords
  | .lines => cmpLines
  | .bytes => cmpBytes

/-- All five comparison kinds. -/
def allKinds : List CmpKind := [.status, .body, .words, .lines, .bytes]

/-- The effective predicate set: the enabled kinds, defaulting to body
content when none is enabled. -/
def effectiveKinds (o : Options) : List CmpKind :=
  let enabled := allKinds.filter (kindEnabled o)
  if enabled = [] then [.body] else enabled

/-- Execute a candidate text and compare against the baseline; an execution
error yields `false`, exactly as the callers treat `err == nil && canRemove`. -/
def runTest (exec : GoStr → Option Response) (o : Options) (baseline : Response)
    (t : GoStr) : Bool :=
  match exec t with
  | none => false
  | some r => compareResponses o baseline r

/-- Model of `testModification`: re-parse a copy of the command, apply the
modification to the copy, serialize and execute it; any error on the way
(Go's non-nil error return) counts as not removable. -/
def testModification (exec : GoStr → Option Response) (o : Options) (baseline : Response)
    (c : CurlCommand) (modify : CurlCommand → Except GoStr CurlCommand) : Bool :=
  match ParseCurlCommand c.ToString with
  | .error _ => false
  | .ok copy =>
    match modify copy with
    | .error _ => false
    | .ok copy2 => runTest exec o baseline copy2.ToString

/-- Cookie-carrier test of the value word following an index (the skip
condition of the header pass). -/
def isCookieHeaderAt (c : CurlCommand) (i : Nat) : Bool :=
  decide (i + 1 < c.args.length) && isCookieHeaderVal (c.args.getD (i + 1) [])

/-- One pass of the header candidate loop: try each header index in order,
skipping cookie carriers; return the command with the first accepted removal
committed, or `none` when the pass removes nothing. -/
def tryHeaderIndices (exec : GoStr → Option Response) (o : Options) (baseline : Response)
    (c : CurlCommand) : List Nat → Option CurlCommand
  | [] => none
  | i :: rest =>
    if isCookieHeaderAt c i then tryHeaderIndices exec o baseline c rest
    else if testModification exec o baseline c (fun cc => .ok (cc.RemoveArg i)) then
      some (c.RemoveArg i)
    else tryHeaderIndices exec o baseline c rest

/-- Model of `minimizeHeaders`: repeat passes until one removes nothing; the
loop always terminates because a commit shortens the argument list, which
the fuel argument makes explicit. -/
def minimizeHeaders (exec : GoStr → Option Response) (o : Options) (baseline : Response) :
    Nat → CurlCommand → CurlCommand
  | 0, c => c
  | n + 1, c =>
    let headerIndices := c.FindHeaderArgs
    if headerIndices = [] then c
    else match tryHeaderIndices exec o baseline c headerIndices with
      | none => c
      | some c2 => minimizeHeaders exec o baseline n c2

/-- Model of `testCookieRemoval`. -/
def testCookieRemoval (exec : GoStr → Option Response) (o : Options) (baseline : Response)
    (c : CurlCommand) (cookieIndex : Nat) (cookieName : GoStr) (isHeader : Bool) : Bool :=
  testModification exec o baseline c
    (fun cc => cc.RemoveCookieFromArg cookieIndex cookieName isHeader)

/-- Entry-level candidate loop of the cookie pass: try removing each
well-formed `name=value` entry of one carrier; on acceptance commit the
removal (the source ignores the error of the committing call, leaving the
command unchanged in that case). -/
def tryCookieEntries (exec : GoStr → Option Response) (o : Options) (baseline : Response)
    (c : CurlCommand) (cookieIndex : Nat) (isHeader : Bool) : List GoStr → Option CurlCommand
  | [] => none
  | entry :: rest =>
    let entry2 := trimSpaceGo entry
    if entry2 = [] then tryCookieEntries exec o baseline c cookieIndex isHeader rest
    else match (cutAt '=' entry2).2 with
      | none => tryCookieEntries exec o baseline c cookieIndex isHeader rest
      | some _ =>
        let cookieName := trimSpaceGo (cutAt '=' entry2).1
        if testCookieRemoval exec o baseline c cookieIndex cookieName isHeader then
          match c.RemoveCookieFromArg cookieIndex cookieName isHeader with
          | .ok c2 => some c2
          | .error _ => some c
        else tryCookieEntries exec o baseline c cookieIndex isHeader rest

/-- Carrier-level candidate loop of the cookie pass: for each cookie index,
first try removing the whole argument; if rejected, decompose the carrier
into entries and try those. -/
def tryCookieIndices (exec : GoStr → Option Response) (o : Options) (baseline : Response)
    (c : CurlCommand) : List Nat → Option CurlCommand
  | [] => none
  | cookieIndex :: rest =>
    if cookieIndex + 1 < c.args.length then
      let headerStr := trimQuotesGo (c.args.getD (cookieIndex + 1) [])
      let isHeader := (gs "cookie:").isPrefixOf (headerStr.map Char.toLower)
      if testModification exec o baseline c (fun cc => .ok (cc.RemoveArg cookieIndex)) then
        some (c.RemoveArg cookieIndex)
      else
        let cookieStr :=
          if isHeader then trimPre (gs "cookie:") (trimPre (gs "Cookie:") headerStr)
          else headerStr
        match tryCookieEntries exec o baseline c cookieIndex isHeader
            (splitOnChar ';' cookieStr) with
        | some c2 => some c2
        | none => tryCookieIndices exec o baseline c rest
    else tryCookieIndices exec o baseline c rest

/-- Model of `minimizeCookies` (pass loop, as for headers). -/
def minimizeCookies (exec : GoStr → Option Response) (o : Options) (baseline : Response) :
    Nat → CurlCommand → CurlCommand
  | 0, c => c
  | n + 1, c =>
    let cookieIndices := c.FindCookieArgs
    if cookieIndices = [] then c
    else match tryCookieIndices exec o baseline c cookieIndices with
      | none => c
      | some c2 => minimizeCookies exec o baseline n c2

/-- The hardcoded protected query key. -/
def authKey : GoStr := gs "auth_key"

/-- Parameter candidate loop of the query pass: skip the protected key,
build the candidate URL with the parameter deleted, test it on a re-parsed
copy, and on acceptance rewrite the URL word of the working command. -/
def qpTryParams (exec : GoStr → Option Response) (o : Options) (baseline : Response)
    (c : CurlCommand) (urlIndex : Nat) (parsedURL : UrlModel) (query : Values) :
    List GoStr → Option CurlCommand
  | [] => none
  | param :: rest =>
    if param = authKey then qpTryParams exec o baseline c urlIndex parsedURL query rest
    else
      let testURL := { parsedURL with rawQuery := encodeValues (valuesDel query param) }
      if testModification exec o baseline c (fun cc =>
          match cc.FindURLArg with
          | .error e => .error e
          | .ok j => .ok ⟨cc.args.set j (quoteSingle (urlToString testURL))⟩) then
        some ⟨c.args.set urlIndex (quoteSingle (urlToString testURL))⟩
      else qpTryParams exec o baseline c urlIndex parsedURL query rest

/-- Model of `minimizeQueryParams`: each outer iteration re-locates and
re-parses the URL and its query, then tries the parameters in the order
given by `ord` (Go iterates a map, whose order is arbitrary; `ord` makes
that choice a parameter).  Any failure locating or parsing ends the pass. -/
def minimizeQueryParams (exec : GoStr → Option Response) (o : Options) (baseline : Response)
    (ord : Values → List GoStr) : Nat → CurlCommand → CurlCommand
  | 0, c => c
  | n + 1, c =>
    match c.FindURLArg with
    | .error _ => c
    | .ok urlIndex =>
      match urlParseGo (trimQuotesGo (c.args.getD urlIndex [])) with
      | none => c
      | some parsedURL =>
        if parsedURL.rawQuery = [] then c
        else match parseQueryGo parsedURL.rawQuery with
          | none => c
          | some query =>
            match qpTryParams exec o baseline c urlIndex parsedURL query (ord query) with
            | none => c
            | some c2 => minimizeQueryParams exec o baseline ord n c2

/-- Model of `MinimizeCurlCommand`: preprocess (falling back to the original
text on failure), parse, capture the baseline through the oracle (a baseline
execution error is fatal), then run the three category reductions in order
and serialize. -/
def MinimizeCurlCommand (exec : GoStr → Option Response) (o : Options)
    (ord : Values → List GoStr) (fuel : Nat) (curlCmd : GoStr) : Except GoStr GoStr :=
  let cmd2 := match PreprocessCurlCommand curlCmd with
    | .error _ => curlCmd
    | .ok p => p
  match ParseCurlCommand cmd2 with
  | .error _ => .error (gs "failed to parse curl command")
  | .ok curl =>
    match exec curl.ToString with
    | none => .error (gs "failed to get baseline response")
    | some baselineResp =>
      let c1 := if o.minimizeHeaders then minimizeHeaders exec o baselineResp fuel curl else curl
      let c2 := if o.minimizeCookies then minimizeCookies exec o baselineResp fuel c1 else c1
      let c3 := if o.minimizeParams then minimizeQueryParams exec o baselineResp ord fuel c2
        else c2
      .ok c3.ToString

/-- Quote state after scanning a character list from a starting state. -/
def scanQ (q : Option Char) (s : List Char) : Option Char := s.foldl qstep q

/-- No character of the list is a separator while the scan state is outside
quotes. -/
def noBareSep : Option Char → List Char → Bool
  | _, [] => true
  | none, c :: rest => !isSepChar c && noBareSep (qstep none c) rest
  | some x, c :: rest => noBareSep (qstep (some x) c) rest

/-- A well-formed word token: nonempty, all quotes closed, and no bare
separator.  The tokenizer only produces such tokens, and serializing and
re-tokenizing a list of such tokens is the identity. -/
def wfTok (t : GoStr) : Bool := !t.isEmpty && noBareSep none t && (scanQ none t).isNone

/-- The quote state is either outside quotes or inside one of the two quote
characters (an invariant of every reachable scan state). -/
def quoteState : Option Char → Bool
  | none => true
  | some x => isQuoteChar x

/-- The resolved header values of an invocation: the quote-trimmed value
word of every found header argument. -/
def resolvedHeaders (c : CurlCommand) : List GoStr :=
  c.FindHeaderArgs.map (fun i => trimQuotesGo (c.args.getD (i + 1) []))

/-- The cookie entries of every found cookie argument: the carrier value is
decoded as the cookie pass decodes it, split on `;` and trimmed, empty
entries dropped. -/
def cookieEntriesOf (c : CurlCommand) : List (List GoStr) :=
  c.FindCookieArgs.map (fun i =>
    let headerStr := trimQuotesGo (c.args.getD (i + 1) [])
    let cookieStr :=
      if (gs "cookie:").isPrefixOf (headerStr.map Char.toLower) then
        trimPre (gs "cookie:") (trimPre (gs "Cookie:") headerStr)
      else headerStr
    ((splitOnChar ';' cookieStr).map trimSpaceGo).filter (fun e => !e.isEmpty))

/-- The query parameters of an invocation; a failure to locate or parse the
URL yields no parameters. -/
def queryParamsOf (c : CurlCommand) : List (GoStr × GoStr) :=
  match c.FindQueryParams with
  | .ok ps => ps
  | .error _ => []

/-- The query keys of one argument word, read the way the query pass reads
them: trim quotes, parse as a URL, parse the raw query; failures yield no
keys. -/
def queryKeysOfArg (a : GoStr) : List GoStr :=
  match urlParseGo (trimQuotesGo a) with
  | none => []
  | some u =>
    match parseQueryGo u.rawQuery with
    | none => []
    | some vs => vs.map (fun kv => kv.1)

/-- The entries of a cookie-carrier text kept by entry removal: split on
`;`, trim, keep the nonempty well-formed (`name=value`) entries whose
trimmed name differs from the removed name. -/
def keptEntries (cookieStr cookieName : GoStr) : List GoStr :=
  ((splitOnChar ';' cookieStr).map trimSpaceGo).filter (fun e =>
    !e.isEmpty && ((cutAt '=' e).2).isSome && !(trimSpaceGo (cutAt '=' e).1 == cookieName))

/-- The quote-trimmed value word following a carrier index. -/
def carrierRaw (c : CurlCommand) (i : Nat) : GoStr := trimQuotesGo (c.args.getD (i + 1) [])

/-- The carrier text handed to the cookie splitter: for a header carrier the
two exact prefix spellings are stripped. -/
def carrierText (c : CurlCommand) (i : Nat) (isHeader : Bool) : GoStr :=
  if isHeader then trimPre (gs "cookie:") (trimPre (gs "Cookie:") (carrierRaw c i))
  else carrierRaw c i

/-- Characters that the rebuilt URL machinery must never see unescaped in an
encoded query: the query separators, equals, hash, question mark and the two
shell quote characters. -/
def badQueryChar (c : Char) : Bool :=
  c = '&' || c = ';' || c = '=' || c = '#' || c = '?' || c = '\'' || c = '"'


/-- Oracle agreement for the congruence argument: every call either returns
the same outcome through both oracles, or errors on the left while the right
returns a response the comparison rejects (both read back as "element
needed"). -/
def execAgree (o : Options) (baseline : Response) (exec1 exec2 : GoStr → Option Response) : Prop :=
  ∀ t, exec1 t = exec2 t ∨
    (exec1 t = none ∧ ∃ r, exec2 t = some r ∧ compareResponses o baseline r = false)

/-! ### Theorems -/

/-- C1.  The equivalence check returns true exactly when every predicate of
the effective set (the enabled comparison predicates, or body content alone
when none is enabled) agrees between the two responses; predicates outside
the effective set do not influence the result. -/
theorem compareResponses_eq_all_effective (o : Options) (r1 r2 : Response) :
    compareResponses o r1 r2 = (effectiveKinds o).all (fun k => kindAgrees k r1 r2) := by
  obtain ⟨mh, mc, mp, vb, cs, cb, cw, cl, cby⟩ := o
  cases cs <;> cases cb <;> cases cw <;> cases cl <;> cases cby <;>
    simp [compareResponses, effectiveKinds, allKinds, kindEnabled, kindAgrees,
      Bool.and_assoc]

/-- C4.  RemoveArgument: a no-op outside the index range starting at 1; at
an in-range index holding a flag whose successor exists and is not a flag,
both positions are deleted; otherwise only the indexed position is
deleted. -/
theorem RemoveArg_spec (c : CurlCommand) (i : Nat) :
    (i < 1 ∨ c.args.length ≤ i → c.RemoveArg i = c)
    ∧ (1 ≤ i → i + 1 < c.args.length → startsDash (c.args.getD i []) = true →
        startsDash (c.args.getD (i + 1) []) = false →
        (c.RemoveArg i).args = (c.args.eraseIdx (i + 1)).eraseIdx i)
    ∧ (1 ≤ i → i < c.args.length →
        ¬(i + 1 < c.args.length ∧ startsDash (c.args.getD i []) = true
            ∧ startsDash (c.args.getD (i + 1) []) = false) →
        (c.RemoveArg i).args = c.args.eraseIdx i) := by
  have hdouble : ∀ (l : List GoStr) (j : Nat), j + 1 < l.length →
      (l.eraseIdx (j + 1)).eraseIdx j = l.take j ++ l.drop (j + 2) := by
    intro l j hlt
    rw [List.eraseIdx_eq_take_drop_succ, List.eraseIdx_eq_take_drop_succ]
    rw [List.take_append_eq_append_take, List.take_take]
    have h1 : min j (j + 1) = j := by omega
    have h2 : j - (l.take (j + 1)).length = 0 := by
      simp [List.length_take]; omega
    rw [h1, h2, List.drop_append_eq_append_drop]
    have h3 : (j + 1) - (l.take (j + 1)).length = 0 := by
      simp [List.length_take]; omega
    have h4 : List.drop (j + 1) (l.take (j + 1)) = [] := by
      simp [List.drop_take]
    rw [h3, h4]
    simp
  refine ⟨?_, ?_, ?_⟩
  · intro h
    unfold CurlCommand.RemoveArg
    rw [if_pos (by rcases h with h | h <;> simp [h])]
  · intro h1 h2 h3 h4
    unfold CurlCommand.RemoveArg
    rw [if_neg (by simp; omega), if_pos (by
      simp only [Bool.and_eq_true, decide_eq_true_eq, Bool.not_eq_true']
      exact ⟨⟨h2, h3⟩, h4⟩)]
    exact (hdouble c.args i h2).symm
  · intro h1 h2 h3
    unfold CurlCommand.RemoveArg
    rw [if_neg (by simp; omega), if_neg]
    · exact (List.eraseIdx_eq_take_drop_succ c.args i).symm
    · simp only [Bool.and_eq_true, decide_eq_true_eq, Bool.not_eq_eq_eq_not, Bool.not_true]
      intro hc
      exact h3 ⟨hc.1.1, hc.1.2, by simpa using hc.2⟩

/-- C4 witness: a concrete flag-with-value removal. -/
theorem RemoveArg_spec_witness :
    ((⟨[gs "curl", gs "-H", gs "v", gs "u"]⟩ : CurlCommand).RemoveArg 1).args
      = ([gs "curl", gs "-H", gs "v", gs "u"].eraseIdx 2).eraseIdx 1 :=
  (RemoveArg_spec ⟨[gs "curl", gs "-H", gs "v", gs "u"]⟩ 1).2.1 (by decide) (by decide)
    (by decide) (by decide)

/-- C9.  Every index returned by the header or cookie finder lies strictly
between 0 and the last position, so the flag at the index is never the
program name and always has a following value token in bounds. -/
theorem find_args_bounds (c : CurlCommand) (i : Nat)
    (h : i ∈ c.FindHeaderArgs ∨ i ∈ c.FindCookieArgs) :
    1 ≤ i ∧ i + 1 < c.args.length := by
  rcases h with h | h
  · simp only [CurlCommand.FindHeaderArgs, List.mem_filter, List.mem_range,
      Bool.and_eq_true, decide_eq_true_eq] at h
    exact ⟨h.2.1.1, h.2.2⟩
  · simp only [CurlCommand.FindCookieArgs, List.mem_filter, List.mem_range,
      Bool.and_eq_true, Bool.or_eq_true, decide_eq_true_eq] at h
    obtain ⟨hr, h0, hd⟩ := h
    rcases hd with ⟨_, h2⟩ | ⟨⟨_, h2⟩, _⟩
    · exact ⟨h0, h2⟩
    · exact ⟨h0, h2⟩

/-- C9 witness: concrete finder results are in bounds. -/
theorem find_args_bounds_witness :
    1 ≤ 1 ∧ 1 + 1 < ([gs "curl", gs "-H", gs "X: 1", gs "u"] : List GoStr).length :=
  find_args_bounds ⟨[gs "curl", gs "-H", gs "X: 1", gs "u"]⟩ 1 (Or.inl (by decide))

/-- Helper: `parseCookieString` keeps exactly the trimmed, well-formed,
non-matching entries, joined by `; `, and reports whether none are left. -/
theorem parseCookieString_eq (cs name : GoStr) :
    parseCookieString cs name =
      (if keptEntries cs name = [] then [] else joinWith (gs "; ") (keptEntries cs name),
        decide (keptEntries cs name = [])) := by
  have key : ∀ (l : List GoStr) (acc : List GoStr),
      l.foldl (fun acc entry =>
        let entry := trimSpaceGo entry
        if entry = [] then acc
        else match (cutAt '=' entry).2 with
          | some _ =>
            if trimSpaceGo (cutAt '=' entry).1 ≠ name then acc ++ [entry] else acc
          | none => acc) acc
      = acc ++ (l.map trimSpaceGo).filter (fun e =>
          !e.isEmpty && ((cutAt '=' e).2).isSome && !(trimSpaceGo (cutAt '=' e).1 == name)) := by
    intro l
    induction l with
    | nil => intro acc; simp
    | cons x xs ih =>
      intro acc
      rw [List.foldl_cons, List.map_cons, List.filter_cons, ih]
      by_cases hx : trimSpaceGo x = []
      · simp [hx]
      · rcases hcut : (cutAt '=' (trimSpaceGo x)).2 with _ | v
        · simp [hx, hcut, List.isEmpty_iff]
        · by_cases hn : trimSpaceGo (cutAt '=' (trimSpaceGo x)).1 = name
          · simp [hx, hcut, hn, List.isEmpty_iff]
          · simp [hx, hcut, hn, List.isEmpty_iff]
  unfold parseCookieString
  rw [key]
  simp only [List.nil_append]
  by_cases h : keptEntries cs name = []
  · unfold keptEntries at h
    simp [h, keptEntries]
  · unfold keptEntries at h
    simp only [keptEntries, h, if_neg]
    simp [h]

/-- C5 counterexample: on the carrier `Cookie: a=1; junk`, removing `a`
deletes the whole argument although the entry `junk` (malformed, lacking
`=`) remains after splitting and differs from the removed name; the claim
would rejoin and keep it. -/
theorem RemoveCookieFromArg_counterexample :
    (⟨[gs "curl", gs "-H", gs "'Cookie: a=1; junk'", gs "u"]⟩ :
        CurlCommand).RemoveCookieFromArg 1 (gs "a") true = .ok ⟨[gs "curl", gs "u"]⟩
    ∧ (splitOnChar ';' (trimPre (gs "cookie:") (trimPre (gs "Cookie:")
          (trimQuotesGo (gs "'Cookie: a=1; junk'"))))).any
        (fun e => !(trimSpaceGo e).isEmpty
          && !(trimSpaceGo (cutAt '=' (trimSpaceGo e)).1 == gs "a")) = true :=
  ⟨rfl, by decide⟩

/-- C5 (amended).  Cookie-entry removal decodes the carrier (stripping only
the exact `Cookie:`/`cookie:` spellings for header carriers, failing on
other spellings), splits on `;`, trims each entry, keeps only the nonempty
well-formed `name=value` entries whose trimmed name differs from the given
name, rejoins them in order with `; `, and removes the whole carrier
argument when no such entry remains. -/
theorem RemoveCookieFromArg_spec (c : CurlCommand) (i : Nat) (name : GoStr) (isHeader : Bool)
    (h1 : 1 ≤ i) (h2 : i + 1 < c.args.length) :
    (isHeader = true →
        (gs "cookie:").isPrefixOf ((carrierRaw c i).map Char.toLower) = false →
        c.RemoveCookieFromArg i name isHeader = .error (gs "not a cookie header"))
    ∧ ((isHeader = true →
          (gs "cookie:").isPrefixOf ((carrierRaw c i).map Char.toLower) = true) →
        (keptEntries (carrierText c i isHeader) name = [] →
          c.RemoveCookieFromArg i name isHeader = .ok (c.RemoveArg i))
        ∧ (keptEntries (carrierText c i isHeader) name ≠ [] →
          c.RemoveCookieFromArg i name isHeader = .ok ⟨c.args.set (i + 1)
            (if isHeader then
              gs "'Cookie: " ++ joinWith (gs "; ")
                (keptEntries (carrierText c i isHeader) name) ++ ['\'']
            else quoteSingle (joinWith (gs "; ")
              (keptEntries (carrierText c i isHeader) name)))⟩)) := by
  have hrange : ¬(i < 1 ∨ c.args.length ≤ i + 1) := by omega
  have hcore : ∀ (hd : Bool) (cs : GoStr),
      removeCookieCore c i name hd cs =
        if keptEntries cs name = [] then c.RemoveArg i
        else ⟨c.args.set (i + 1)
          (if hd then gs "'Cookie: " ++ joinWith (gs "; ") (keptEntries cs name) ++ ['\'']
           else quoteSingle (joinWith (gs "; ") (keptEntries cs name)))⟩ := by
    intro hd cs
    unfold removeCookieCore
    rw [parseCookieString_eq]
    by_cases hk : keptEntries cs name = []
    · simp [hk]
    · simp [hk]
  refine ⟨?_, ?_⟩
  · intro hh hp
    subst hh
    unfold CurlCommand.RemoveCookieFromArg
    rw [if_neg (by simpa using hrange), if_pos rfl]
    simp only [carrierRaw] at hp
    rw [hp]
    rfl
  · intro hp
    constructor
    · intro hk
      unfold CurlCommand.RemoveCookieFromArg
      rw [if_neg (by simpa using hrange)]
      cases isHeader with
      | false =>
        rw [if_neg (by simp), hcore false]
        have hk2 : keptEntries (trimQuotesGo (c.args.getD (i + 1) [])) name = [] := by
          simpa [carrierText, carrierRaw] using hk
        rw [if_pos hk2]
      | true =>
        have hp2 := hp rfl
        simp only [carrierRaw] at hp2
        rw [if_pos rfl, hp2]
        rw [if_neg (by simp), hcore true]
        have hk2 : keptEntries (trimPre (gs "cookie:") (trimPre (gs "Cookie:")
            (trimQuotesGo (c.args.getD (i + 1) [])))) name = [] := by
          simpa [carrierText, carrierRaw] using hk
        rw [if_pos hk2]
    · intro hk
      unfold CurlCommand.RemoveCookieFromArg
      rw [if_neg (by simpa using hrange)]
      cases isHeader with
      | false =>
        rw [if_neg (by simp), hcore false]
        have hk2 : keptEntries (trimQuotesGo (c.args.getD (i + 1) [])) name ≠ [] := by
          simpa [carrierText, carrierRaw] using hk
        rw [if_neg hk2]
        simp [carrierText, carrierRaw]
      | true =>
        have hp2 := hp rfl
        simp only [carrierRaw] at hp2
        rw [if_pos rfl, hp2]
        rw [if_neg (by simp), hcore true]
        have hk2 : keptEntries (trimPre (gs "cookie:") (trimPre (gs "Cookie:")
            (trimQuotesGo (c.args.getD (i + 1) [])))) name ≠ [] := by
          simpa [carrierText, carrierRaw] using hk
        rw [if_neg hk2]
        simp [carrierText, carrierRaw]

/-- C5 witness: removing `a` from the well-formed carrier
`Cookie: a=1; b=2` keeps `b=2` and rewrites the value word. -/
theorem RemoveCookieFromArg_spec_witness :
    (⟨[gs "curl", gs "-H", gs "'Cookie: a=1; b=2'", gs "u"]⟩ :
        CurlCommand).RemoveCookieFromArg 1 (gs "a") true
      = .ok ⟨[gs "curl", gs "-H", gs "'Cookie: b=2'", gs "u"]⟩ := by
  have h := ((RemoveCookieFromArg_spec ⟨[gs "curl", gs "-H", gs "'Cookie: a=1; b=2'", gs "u"]⟩
      1 (gs "a") true (by decide) (by decide)).2 (fun _ => by decide)).2 (by decide)
  rw [h]
  rfl

theorem tokAux_acc (s : List Char) : ∀ (q : Option Char) (cur : GoStr) (acc : List GoStr),
    tokAux s q cur acc = (tokAux s q cur []).map (fun ts => acc ++ ts) := by
  induction s with
  | nil =>
    intro q cur acc
    cases q with
    | none =>
      by_cases hc : cur.isEmpty <;> simp [tokAux, hc]
    | some x => simp [tokAux]
  | cons c rest ih =>
    intro q cur acc
    cases q with
    | none =>
      cases hc : isSepChar c
      · simp only [tokAux, hc, Bool.false_eq_true, if_false]
        rw [ih (qstep none c) (cur ++ [c]) acc]
      · simp only [tokAux, hc, if_true]
        rw [ih none [] (if cur.isEmpty then acc else acc ++ [cur]),
          ih none [] (if cur.isEmpty then [] else [] ++ [cur])]
        cases htk : tokAux rest none [] [] <;> by_cases hc2 : cur.isEmpty <;>
          simp [htk, hc2]
    | some x =>
      simp only [tokAux]
      rw [ih (qstep (some x) c) (cur ++ [c]) acc]

theorem scanQ_append (a b : List Char) (q : Option Char) :
    scanQ q (a ++ b) = scanQ (scanQ q a) b := by
  simp [scanQ, List.foldl_append]

theorem noBareSep_append (a b : List Char) : ∀ q : Option Char,
    noBareSep q (a ++ b) = (noBareSep q a && noBareSep (scanQ q a) b) := by
  induction a with
  | nil => intro q; simp [noBareSep, scanQ]
  | cons c a ih =>
    intro q
    cases q with
    | none =>
      show noBareSep none (c :: (a ++ b)) = _
      simp only [noBareSep]
      rw [ih (qstep none c)]
      simp [scanQ, List.foldl_cons, Bool.and_assoc]
    | some x =>
      show noBareSep (some x) (c :: (a ++ b)) = _
      simp only [noBareSep]
      rw [ih (qstep (some x) c)]
      simp [scanQ, List.foldl_cons]

theorem tokAux_last (t : List Char) : ∀ (q : Option Char) (cur : GoStr),
    noBareSep q t = true → scanQ q t = none → (cur ++ t).isEmpty = false →
    tokAux t q cur [] = some [cur ++ t] := by
  induction t with
  | nil =>
    intro q cur h1 h2 h3
    simp only [scanQ, List.foldl_nil] at h2
    subst h2
    simp only [List.append_nil] at h3
    simp [tokAux, h3]
  | cons c t ih =>
    intro q cur h1 h2 h3
    cases q with
    | none =>
      simp only [noBareSep, Bool.and_eq_true, Bool.not_eq_true'] at h1
      simp only [tokAux, h1.1, Bool.false_eq_true, if_false, List.append_eq]
      rw [ih (qstep none c) (cur ++ [c]) h1.2
        (by simpa [scanQ, List.foldl_cons] using h2) (by simp)]
      simp
    | some x =>
      simp only [noBareSep] at h1
      simp only [tokAux, List.append_eq]
      rw [ih (qstep (some x) c) (cur ++ [c]) h1
        (by simpa [scanQ, List.foldl_cons] using h2) (by simp)]
      simp

theorem tokAux_consume (t : List Char) : ∀ (q : Option Char) (cur : GoStr) (c0 : Char)
    (rest : List Char), isSepChar c0 = true →
    noBareSep q t = true → scanQ q t = none → (cur ++ t).isEmpty = false →
    tokAux (t ++ c0 :: rest) q cur []
      = (tokAux rest none [] []).map (fun ts => (cur ++ t) :: ts) := by
  induction t with
  | nil =>
    intro q cur c0 rest hc0 h1 h2 h3
    simp only [scanQ, List.foldl_nil] at h2
    subst h2
    simp only [List.append_nil] at h3
    simp only [List.nil_append, tokAux, hc0, if_true]
    rw [tokAux_acc rest none [] (if cur.isEmpty then [] else [cur])]
    simp only [h3, Bool.false_eq_true, if_false]
    cases htk : tokAux rest none [] [] <;> simp [htk]
  | cons c t ih =>
    intro q cur c0 rest hc0 h1 h2 h3
    cases q with
    | none =>
      simp only [noBareSep, Bool.and_eq_true, Bool.not_eq_true'] at h1
      simp only [List.cons_append, tokAux, h1.1, Bool.false_eq_true, if_false,
        List.append_eq]
      rw [ih (qstep none c) (cur ++ [c]) c0 rest hc0 h1.2
        (by simpa [scanQ, List.foldl_cons] using h2) (by simp)]
      simp
    | some x =>
      simp only [noBareSep] at h1
      simp only [List.cons_append, tokAux, List.append_eq]
      rw [ih (qstep (some x) c) (cur ++ [c]) c0 rest hc0 h1
        (by simpa [scanQ, List.foldl_cons] using h2) (by simp)]
      simp

theorem tokenize_join (ts : List GoStr) (h : ∀ t ∈ ts, wfTok t = true) (hne : ts ≠ []) :
    tokenizeGo (joinWith (gs " ") ts) = some ts := by
  induction ts with
  | nil => cases hne rfl
  | cons t ts ih =>
    have hw := h t (by simp)
    simp only [wfTok, Bool.and_eq_true, Bool.not_eq_true', Option.isNone_iff_eq_none] at hw
    cases ts with
    | nil =>
      show tokenizeGo t = some [t]
      unfold tokenizeGo
      have := tokAux_last t none [] hw.1.2 hw.2 (by simpa using hw.1.1)
      simpa using this
    | cons t2 ts2 =>
      show tokenizeGo (t ++ gs " " ++ joinWith (gs " ") (t2 :: ts2)) = _
      unfold tokenizeGo
      rw [List.append_assoc]
      have hj : gs " " ++ joinWith (gs " ") (t2 :: ts2) = ' ' :: joinWith (gs " ") (t2 :: ts2) := rfl
      rw [hj]
      rw [tokAux_consume t none [] ' ' (joinWith (gs " ") (t2 :: ts2)) (by decide)
        hw.1.2 hw.2 (by simpa using hw.1.1)]
      have ih2 := ih (fun x hx => h x (List.mem_cons_of_mem t hx)) (by simp)
      unfold tokenizeGo at ih2
      rw [ih2]
      simp

theorem tokAux_wf (s : List Char) : ∀ (q : Option Char) (cur : GoStr) (acc toks : List GoStr),
    tokAux s q cur acc = some toks →
    (∀ t ∈ acc, wfTok t = true) →
    noBareSep none cur = true → scanQ none cur = q →
    ∀ t ∈ toks, wfTok t = true := by
  induction s with
  | nil =>
    intro q cur acc toks he hacc hcur hscan t ht
    cases q with
    | none =>
      by_cases hc : cur.isEmpty
      · simp only [tokAux, hc, if_true] at he
        cases he
        exact hacc t ht
      · simp only [tokAux, hc, Bool.false_eq_true, if_false] at he
        cases he
        rcases List.mem_append.mp ht with h1 | h1
        · exact hacc t h1
        · have heq : t = cur := by simpa using h1
          rw [heq]
          have hc2 : List.isEmpty cur = false := by simpa using hc
          simp [wfTok, hcur, hscan, hc2, Option.isNone_iff_eq_none]
    | some x => simp [tokAux] at he
  | cons c rest ih =>
    intro q cur acc toks he hacc hcur hscan t ht
    cases q with
    | none =>
      cases hc : isSepChar c
      · simp only [tokAux, hc, Bool.false_eq_true, if_false] at he
        refine ih (qstep none c) (cur ++ [c]) acc toks he hacc ?_ ?_ t ht
        · rw [noBareSep_append, hcur, hscan]
          simp [noBareSep, hc]
        · rw [scanQ_append, hscan]
          simp [scanQ]
      · simp only [tokAux, hc, if_true] at he
        refine ih none [] _ toks he ?_ rfl rfl t ht
        intro u hu
        by_cases hce : cur.isEmpty
        · rw [if_pos hce] at hu
          exact hacc u hu
        · rw [if_neg hce] at hu
          rcases List.mem_append.mp hu with h1 | h1
          · exact hacc u h1
          · have heq : u = cur := by simpa using h1
            rw [heq]
            have hce2 : List.isEmpty cur = false := by simpa using hce
            simp [wfTok, hcur, hscan, hce2, Option.isNone_iff_eq_none]
    | some x =>
      simp only [tokAux] at he
      refine ih (qstep (some x) c) (cur ++ [c]) acc toks he hacc ?_ ?_ t ht
      · rw [noBareSep_append, hcur, hscan]
        simp [noBareSep]
      · rw [scanQ_append, hscan]
        simp [scanQ]

theorem quoteState_step (q : Option Char) (c : Char) (h : quoteState q = true) :
    quoteState (qstep q c) = true := by
  cases q with
  | none =>
    by_cases hq : isQuoteChar c <;> simp [qstep, quoteState, hq]
  | some x =>
    by_cases hc : c = x
    · simp [qstep, quoteState, hc]
    · simpa [qstep, quoteState, hc] using h

theorem wf_last_not_sep (t : List Char) : ∀ (q : Option Char),
    quoteState q = true → noBareSep q t = true → scanQ q t = none →
    ∀ c, t.getLast? = some c → isSepChar c = false := by
  induction t with
  | nil => intro q _ _ _ c hc; simp at hc
  | cons x t ih =>
    intro q hq h1 h2 c hc
    cases t with
    | nil =>
      have hlast : ([x] : List Char).getLast? = some x := rfl
      rw [hlast] at hc
      injection hc with hxc
      subst hxc
      cases q with
      | none =>
        simp only [noBareSep, Bool.and_eq_true, Bool.not_eq_true'] at h1
        exact h1.1
      | some y =>
        have h2a : qstep (some y) x = none := by simpa [scanQ] using h2
        by_cases hcy : x = y
        · subst hcy
          simp only [quoteState, isQuoteChar, Bool.or_eq_true, decide_eq_true_eq] at hq
          rcases hq with hq | hq <;> subst hq <;> decide
        · simp [qstep, hcy] at h2a
    | cons x2 t2 =>
      rw [List.getLast?_cons_cons] at hc
      cases q with
      | none =>
        simp only [noBareSep, Bool.and_eq_true] at h1
        exact ih (qstep none x) (quoteState_step none x hq) h1.2
          (by simpa [scanQ, List.foldl_cons] using h2) c hc
      | some y =>
        simp only [noBareSep] at h1
        exact ih (qstep (some y) x) (quoteState_step (some y) x hq) h1
          (by simpa [scanQ, List.foldl_cons] using h2) c hc

theorem dropWhile_eq_self_of_head (p : Char → Bool) (s : List Char)
    (h : ∀ c, s.head? = some c → p c = false) : s.dropWhile p = s := by
  cases s with
  | nil => rfl
  | cons c rest =>
    rw [List.dropWhile_cons, h c rfl]
    simp

theorem dropEnd_eq_self_of_last (p : Char → Bool) (s : List Char)
    (h : ∀ c, s.getLast? = some c → p c = false) : dropEnd p s = s := by
  unfold dropEnd
  rw [dropWhile_eq_self_of_head]
  · simp
  · intro c hc
    apply h
    rw [← List.head?_reverse]
    exact hc

theorem wf_head_not_sep (t : GoStr) (hw : wfTok t = true) :
    ∀ c, t.head? = some c → isSepChar c = false := by
  intro c hc
  cases t with
  | nil => simp at hc
  | cons x rest =>
    injection hc with hxc
    subst hxc
    simp only [wfTok, noBareSep, Bool.and_eq_true, Bool.not_eq_true'] at hw
    exact hw.1.2.1

theorem join_ne_nil (ts : List GoStr) (h : ∀ t ∈ ts, wfTok t = true) (hne : ts ≠ []) :
    joinWith (gs " ") ts ≠ [] := by
  cases ts with
  | nil => cases hne rfl
  | cons t ts =>
    have hw := h t (by simp)
    have ht : t ≠ [] := by
      simp only [wfTok, Bool.and_eq_true, Bool.not_eq_true'] at hw
      simpa [List.isEmpty_iff] using hw.1.1
    cases ts with
    | nil => exact ht
    | cons t2 ts2 =>
      show t ++ gs " " ++ joinWith (gs " ") (t2 :: ts2) ≠ []
      simp [ht]

theorem join_head (ts : List GoStr) (h : ∀ t ∈ ts, wfTok t = true) (hne : ts ≠ []) :
    ∀ c, (joinWith (gs " ") ts).head? = some c →
      ∃ t, t ∈ ts ∧ t.head? = some c := by
  intro c hc
  cases ts with
  | nil => cases hne rfl
  | cons t ts =>
    cases ts with
    | nil => exact ⟨t, by simp, hc⟩
    | cons t2 ts2 =>
      have hw := h t (by simp)
      have ht : t ≠ [] := by
        simp only [wfTok, Bool.and_eq_true, Bool.not_eq_true'] at hw
        simpa [List.isEmpty_iff] using hw.1.1
      refine ⟨t, by simp, ?_⟩
      obtain ⟨x, rest, hx⟩ := List.exists_cons_of_ne_nil ht
      subst hx
      have hj : joinWith (gs " ") ((x :: rest) :: t2 :: ts2)
          = x :: (rest ++ gs " " ++ joinWith (gs " ") (t2 :: ts2)) := by
        show (x :: rest) ++ gs " " ++ joinWith (gs " ") (t2 :: ts2) = _
        simp
      rw [hj] at hc
      simpa using hc

theorem join_last (ts : List GoStr) : (∀ t ∈ ts, wfTok t = true) → ts ≠ [] →
    ∀ c, (joinWith (gs " ") ts).getLast? = some c →
      ∃ t, t ∈ ts ∧ t.getLast? = some c := by
  induction ts with
  | nil => intro _ hne; cases hne rfl
  | cons t ts ih =>
    intro h hne c hc
    cases ts with
    | nil => exact ⟨t, by simp, hc⟩
    | cons t2 ts2 =>
      have hj2 : joinWith (gs " ") (t2 :: ts2) ≠ [] :=
        join_ne_nil (t2 :: ts2) (fun x hx => h x (List.mem_cons_of_mem t hx)) (by simp)
      have hstep : (joinWith (gs " ") (t :: t2 :: ts2)).getLast?
          = (joinWith (gs " ") (t2 :: ts2)).getLast? := by
        show (t ++ gs " " ++ joinWith (gs " ") (t2 :: ts2)).getLast? = _
        rw [List.append_assoc, List.getLast?_append_of_ne_nil _ (by simp [hj2]),
          List.getLast?_append_of_ne_nil _ hj2]
      rw [hstep] at hc
      obtain ⟨u, hu, huc⟩ := ih (fun x hx => h x (List.mem_cons_of_mem t hx)) (by simp) c hc
      exact ⟨u, List.mem_cons_of_mem t hu, huc⟩

theorem trimSpace_join (ts : List GoStr) (h : ∀ t ∈ ts, wfTok t = true) (hne : ts ≠ []) :
    trimSpaceGo (joinWith (gs " ") ts ++ ['\n']) = joinWith (gs " ") ts := by
  have hjn : joinWith (gs " ") ts ≠ [] := join_ne_nil ts h hne
  have hhead : ∀ c, (joinWith (gs " ") ts).head? = some c → isSepChar c = false := by
    intro c hc
    obtain ⟨t, ht, htc⟩ := join_head ts h hne c hc
    exact wf_head_not_sep t (h t ht) c htc
  have hlast : ∀ c, (joinWith (gs " ") ts).getLast? = some c → isSepChar c = false := by
    intro c hc
    obtain ⟨t, ht, htc⟩ := join_last ts h hne c hc
    have hw := h t ht
    simp only [wfTok, Bool.and_eq_true, Option.isNone_iff_eq_none] at hw
    exact wf_last_not_sep t none rfl hw.1.2 hw.2 c htc
  unfold trimSpaceGo
  have hfront : (joinWith (gs " ") ts ++ ['\n']).dropWhile isSepChar
      = joinWith (gs " ") ts ++ ['\n'] := by
    rw [List.dropWhile_append]
    rw [dropWhile_eq_self_of_head isSepChar _ hhead]
    simp [List.isEmpty_iff, hjn]
  rw [hfront]
  unfold dropEnd
  rw [List.reverse_append]
  show (('\n' :: (joinWith (gs " ") ts).reverse).dropWhile isSepChar).reverse = _
  rw [List.dropWhile_cons]
  simp only [show isSepChar '\n' = true from rfl, if_true]
  rw [dropWhile_eq_self_of_head isSepChar _ (by
    intro c hc
    apply hlast
    rw [← List.head?_reverse]
    exact hc)]
  simp

theorem tokenize_curl_head (r : List Char) :
    tokenizeGo (gs "curl " ++ r) = (tokAux r none [] []).map (fun ts => gs "curl" :: ts) := by
  have h := tokAux_consume (gs "curl") none [] ' ' r (by decide) (by decide) (by decide)
    (by decide)
  unfold tokenizeGo
  exact h

theorem normalizeCurl_eq (s : GoStr) : ∃ r, normalizeCurl s = gs "curl " ++ r := by
  unfold normalizeCurl
  by_cases hp : (gs "curl ").isPrefixOf (trimSpaceGo s)
  · rw [if_pos hp]
    obtain ⟨r, hr⟩ := List.isPrefixOf_iff_prefix.mp hp
    exact ⟨r, hr.symm⟩
  · rw [if_neg hp]
    exact ⟨trimSpaceGo s, rfl⟩

theorem parse_ok_inv (s : GoStr) (c : CurlCommand) (h : ParseCurlCommand s = .ok c) :
    (∃ ts, c.args = gs "curl" :: ts) ∧ (∀ t ∈ c.args, wfTok t = true) := by
  obtain ⟨r, hr⟩ := normalizeCurl_eq s
  unfold ParseCurlCommand at h
  rw [hr, tokenize_curl_head] at h
  rcases htk : tokAux r none [] [] with _ | ts
  · rw [htk] at h
    cases h
  · rw [htk] at h
    have h' : Except.ok (CurlCommand.mk (gs "curl" :: ts)) = Except.ok c := h
    injection h' with h2
    constructor
    · exact ⟨ts, by rw [← h2]⟩
    · intro t ht
      rw [← h2] at ht
      have hwf := tokAux_wf (gs "curl " ++ r) none [] [] (gs "curl" :: ts)
        (by rw [show tokAux (gs "curl " ++ r) none [] [] = tokenizeGo (gs "curl " ++ r) from rfl,
          tokenize_curl_head, htk]; rfl)
        (by simp) rfl rfl
      exact hwf t ht

theorem parse_toString (c : CurlCommand) (hwf : ∀ t ∈ c.args, wfTok t = true)
    (hhead : ∃ ts, c.args = gs "curl" :: ts) (hlen : 2 ≤ c.args.length) :
    ParseCurlCommand c.ToString = .ok c := by
  obtain ⟨ts, hargs⟩ := hhead
  unfold ParseCurlCommand normalizeCurl CurlCommand.ToString
  rw [trimSpace_join c.args hwf (by rw [hargs]; simp)]
  cases ts with
  | nil => rw [hargs] at hlen; simp at hlen
  | cons t2 ts2 =>
    have hpre : (gs "curl ").isPrefixOf (joinWith (gs " ") c.args) = true := by
      rw [hargs]
      apply List.isPrefixOf_iff_prefix.mpr
      refine ⟨joinWith (gs " ") (t2 :: ts2), ?_⟩
      show gs "curl " ++ joinWith (gs " ") (t2 :: ts2)
          = gs "curl" ++ gs " " ++ joinWith (gs " ") (t2 :: ts2)
      rfl
    rw [if_pos hpre]
    rw [tokenize_join c.args hwf (by rw [hargs]; simp)]
    have hcontains : containsSub ((gs "curl").map Char.toLower) (gs "curl") = true := by decide
    rw [hargs]
    simp only [hcontains, if_pos]
    rw [← hargs]

/-- C6 counterexample: the input `wget http://x` has first token `wget`,
not recognizable as curl, yet Parse succeeds (the curl prefix is prepended
during normalization), returning a structured invocation rather than a
ParseError. -/
theorem ParseCurlCommand_counterexample :
    ParseCurlCommand (gs "wget http://x")
        = .ok ⟨[gs "curl", gs "wget", gs "http://x"]⟩
    ∧ containsSub ((gs "wget").map Char.toLower) (gs "curl") = false :=
  ⟨rfl, by decide⟩

/-- C6 (amended).  Parse first normalizes the input by prepending `curl `
when absent, so the first word of the parsed command is always the command
name: the two documented failures are dead code.  No input returns the
first-token ParseError or the no-statements ParseError, every successful
parse yields an invocation whose first token is `curl`, and a shell
tokenization failure (an unterminated quote) still yields a ParseError.
Error paths for inputs that are not a single simple call (pipelines and
other compound statements) lie outside the modeled word-command fragment
and are not asserted. -/
theorem ParseCurlCommand_spec :
    (∀ s : GoStr, ParseCurlCommand s ≠ .error (gs "not a curl command")) ∧
    (∀ s : GoStr, ParseCurlCommand s ≠ .error (gs "no statements found in command")) ∧
    (∀ (s : GoStr) (c : CurlCommand), ParseCurlCommand s = .ok c →
        ∃ ts, c.args = gs "curl" :: ts) ∧
    (∀ s : GoStr, tokenizeGo (normalizeCurl s) = none →
        ParseCurlCommand s = .error (gs "failed to parse shell command")) := by
  refine ⟨?_, ?_, ?_, ?_⟩
  · intro s
    obtain ⟨r, hr⟩ := normalizeCurl_eq s
    unfold ParseCurlCommand
    rw [hr, tokenize_curl_head]
    rcases htk : tokAux r none [] [] with _ | ts
    · intro h
      injection h with h2
      exact absurd h2 (by decide)
    · intro h
      have hcontains : containsSub ((gs "curl").map Char.toLower) (gs "curl") = true := by
        decide
      simp only [Option.map, hcontains, if_pos] at h
      cases h
  · intro s
    obtain ⟨r, hr⟩ := normalizeCurl_eq s
    unfold ParseCurlCommand
    rw [hr, tokenize_curl_head]
    rcases htk : tokAux r none [] [] with _ | ts
    · intro h
      injection h with h2
      exact absurd h2 (by decide)
    · intro h
      have hcontains : containsSub ((gs "curl").map Char.toLower) (gs "curl") = true := by
        decide
      simp only [Option.map, hcontains, if_pos] at h
      cases h
  · intro s c h
    exact (parse_ok_inv s c h).1
  · intro s hnone
    unfold ParseCurlCommand
    rw [hnone]

/-- C6 witness: the theorem applied at concrete inputs: `wget http://x`
does not produce the first-token failure, a flags-only input parses with
the prepended command name first, and an unterminated quote is the shell
parse error. -/
theorem ParseCurlCommand_spec_witness :
    ParseCurlCommand (gs "wget http://x") ≠ .error (gs "not a curl command") ∧
    (∃ ts, (CurlCommand.mk [gs "curl", gs "-H", gs "a", gs "http://e"]).args
      = gs "curl" :: ts) ∧
    ParseCurlCommand (gs "curl 'x") = .error (gs "failed to parse shell command") :=
  ⟨ParseCurlCommand_spec.1 (gs "wget http://x"),
   ParseCurlCommand_spec.2.2.1 (gs "-H a http://e")
     ⟨[gs "curl", gs "-H", gs "a", gs "http://e"]⟩ rfl,
   ParseCurlCommand_spec.2.2.2 (gs "curl 'x") rfl⟩

/-- C7.  Serializing a parsed invocation and re-parsing yields an
invocation with the same resolved headers, cookie entries and query
parameters (the token list is in fact preserved whenever the invocation has
an argument besides the program name). -/
theorem parse_render_roundtrip (s : GoStr) (c : CurlCommand)
    (h : ParseCurlCommand s = .ok c) :
    ∃ c2, ParseCurlCommand c.ToString = .ok c2
      ∧ resolvedHeaders c2 = resolvedHeaders c
      ∧ cookieEntriesOf c2 = cookieEntriesOf c
      ∧ queryParamsOf c2 = queryParamsOf c := by
  obtain ⟨⟨ts, hargs⟩, hwf⟩ := parse_ok_inv s c h
  cases ts with
  | nil =>
    have hc : c = ⟨[gs "curl"]⟩ := by
      cases c
      simp_all
    subst hc
    exact ⟨⟨[gs "curl", gs "curl"]⟩, rfl, by decide, by decide, by decide⟩
  | cons t2 ts2 =>
    have hlen : 2 ≤ c.args.length := by rw [hargs]; simp
    exact ⟨c, parse_toString c hwf ⟨t2 :: ts2, hargs⟩ hlen, rfl, rfl, rfl⟩

/-- C7 witness: a concrete invocation with a header and a query parameter
round-trips. -/
theorem parse_render_roundtrip_witness :
    ∃ c2, ParseCurlCommand
        (CurlCommand.ToString ⟨[gs "curl", gs "-H", gs "'X: 1'", gs "http://e?a=1"]⟩)
        = .ok c2
      ∧ resolvedHeaders c2
          = resolvedHeaders ⟨[gs "curl", gs "-H", gs "'X: 1'", gs "http://e?a=1"]⟩
      ∧ cookieEntriesOf c2
          = cookieEntriesOf ⟨[gs "curl", gs "-H", gs "'X: 1'", gs "http://e?a=1"]⟩
      ∧ queryParamsOf c2
          = queryParamsOf ⟨[gs "curl", gs "-H", gs "'X: 1'", gs "http://e?a=1"]⟩ :=
  parse_render_roundtrip (gs "curl -H 'X: 1' http://e?a=1")
    ⟨[gs "curl", gs "-H", gs "'X: 1'", gs "http://e?a=1"]⟩ rfl

theorem removeArg_head (c : CurlCommand) (i : Nat) :
    (c.RemoveArg i).args.head? = c.args.head? := by
  have hhead : 1 ≤ i → i < c.args.length →
      ∀ j, (c.args.take i ++ c.args.drop j).head? = c.args.head? := by
    intro hi hlen j
    rcases hargs : c.args with _ | ⟨a, rest⟩
    · rw [hargs] at hlen; simp at hlen
    · obtain ⟨i2, hi2⟩ : ∃ i2, i = i2 + 1 := ⟨i - 1, by omega⟩
      subst hi2
      simp
  unfold CurlCommand.RemoveArg
  split
  next h1 => rfl
  next h1 =>
    have hrange : 1 ≤ i ∧ i < c.args.length := by
      simp only [Bool.or_eq_true, decide_eq_true_eq, not_or] at h1
      omega
    split
    · exact hhead hrange.1 hrange.2 _
    · exact hhead hrange.1 hrange.2 _

theorem set_head (l : List GoStr) (i : Nat) (x : GoStr) (h : 1 ≤ i) :
    (l.set i x).head? = l.head? := by
  rcases l with _ | ⟨a, rest⟩
  · rfl
  · obtain ⟨i2, hi2⟩ : ∃ i2, i = i2 + 1 := ⟨i - 1, by omega⟩
    subst hi2
    simp

theorem findURL_ok_pos (c : CurlCommand) (u : Nat) (h : c.FindURLArg = .ok u) : 1 ≤ u := by
  unfold CurlCommand.FindURLArg at h
  dsimp only at h
  split at h
  next i hf =>
    injection h with h2
    subst h2
    have hp := List.find?_some hf
    simp only [Bool.and_eq_true, decide_eq_true_eq] at hp
    exact hp.1.1
  next hf =>
    split at h
    next hn =>
      split at h
      next hcond =>
        injection h with h2
        omega
      next hcond => cases h
    next hn => cases h

theorem removeCookieCore_head (c : CurlCommand) (i : Nat) (name : GoStr) (hd : Bool)
    (cs : GoStr) : (removeCookieCore c i name hd cs).args.head? = c.args.head? := by
  unfold removeCookieCore
  dsimp only
  split
  · exact removeArg_head c i
  · exact set_head c.args (i + 1) _ (by omega)

theorem removeCookie_ok_head (c : CurlCommand) (i : Nat) (name : GoStr) (ih : Bool)
    (c2 : CurlCommand) (h : c.RemoveCookieFromArg i name ih = .ok c2) :
    c2.args.head? = c.args.head? := by
  unfold CurlCommand.RemoveCookieFromArg at h
  dsimp only at h
  split at h
  · cases h
  · split at h
    · split at h
      · cases h
      · injection h with h2
        rw [← h2]
        exact removeCookieCore_head c i name true _
    · injection h with h2
      rw [← h2]
      exact removeCookieCore_head c i name false _

theorem tryHeader_head (exec : GoStr → Option Response) (o : Options) (baseline : Response)
    (c : CurlCommand) : ∀ (l : List Nat) (c2 : CurlCommand),
    tryHeaderIndices exec o baseline c l = some c2 → c2.args.head? = c.args.head? := by
  intro l
  induction l with
  | nil => intro c2 h; cases h
  | cons i rest ih =>
    intro c2 h
    unfold tryHeaderIndices at h
    split at h
    · exact ih c2 h
    · split at h
      · injection h with h2
        rw [← h2]
        exact removeArg_head c i
      · exact ih c2 h

theorem minimizeHeaders_head (exec : GoStr → Option Response) (o : Options)
    (baseline : Response) : ∀ (fuel : Nat) (c : CurlCommand),
    (minimizeHeaders exec o baseline fuel c).args.head? = c.args.head? := by
  intro fuel
  induction fuel with
  | zero => intro c; rfl
  | succ n ihf =>
    intro c
    unfold minimizeHeaders
    dsimp only
    split
    · rfl
    · split
      · rfl
      next c2 hc2 =>
        rw [ihf c2]
        exact tryHeader_head exec o baseline c _ c2 hc2

theorem tryCookieEntries_head (exec : GoStr → Option Response) (o : Options)
    (baseline : Response) (c : CurlCommand) (ci : Nat) (ih : Bool) :
    ∀ (l : List GoStr) (c2 : CurlCommand),
    tryCookieEntries exec o baseline c ci ih l = some c2 → c2.args.head? = c.args.head? := by
  intro l
  induction l with
  | nil => intro c2 h; cases h
  | cons e rest ihl =>
    intro c2 h
    unfold tryCookieEntries at h
    dsimp only at h
    split at h
    · exact ihl c2 h
    · split at h
      · exact ihl c2 h
      · split at h
        · split at h
          next c3 hc3 =>
            injection h with h2
            rw [← h2]
            exact removeCookie_ok_head c ci _ ih c3 hc3
          next hc3 =>
            injection h with h2
            rw [← h2]
        · exact ihl c2 h

theorem tryCookie_head (exec : GoStr → Option Response) (o : Options) (baseline : Response)
    (c : CurlCommand) : ∀ (l : List Nat) (c2 : CurlCommand),
    tryCookieIndices exec o baseline c l = some c2 → c2.args.head? = c.args.head? := by
  intro l
  induction l with
  | nil => intro c2 h; cases h
  | cons i rest ihl =>
    intro c2 h
    unfold tryCookieIndices at h
    dsimp only at h
    split at h
    · split at h
      · injection h with h2
        rw [← h2]
        exact removeArg_head c i
      · split at h
        next c3 hc3 =>
          injection h with h2
          rw [← h2]
          exact tryCookieEntries_head exec o baseline c i _ _ c3 hc3
        next hc3 => exact ihl c2 h
    · exact ihl c2 h

theorem minimizeCookies_head (exec : GoStr → Option Response) (o : Options)
    (baseline : Response) : ∀ (fuel : Nat) (c : CurlCommand),
    (minimizeCookies exec o baseline fuel c).args.head? = c.args.head? := by
  intro fuel
  induction fuel with
  | zero => intro c; rfl
  | succ n ihf =>
    intro c
    unfold minimizeCookies
    dsimp only
    split
    · rfl
    · split
      · rfl
      next c2 hc2 =>
        rw [ihf c2]
        exact tryCookie_head exec o baseline c _ c2 hc2

theorem qpTryParams_head (exec : GoStr → Option Response) (o : Options) (baseline : Response)
    (c : CurlCommand) (u : Nat) (pu : UrlModel) (q : Values) (hu : 1 ≤ u) :
    ∀ (l : List GoStr) (c2 : CurlCommand),
    qpTryParams exec o baseline c u pu q l = some c2 → c2.args.head? = c.args.head? := by
  intro l
  induction l with
  | nil => intro c2 h; cases h
  | cons p rest ihl =>
    intro c2 h
    unfold qpTryParams at h
    dsimp only at h
    split at h
    · exact ihl c2 h
    · split at h
      · injection h with h2
        rw [← h2]
        exact set_head c.args u _ hu
      · exact ihl c2 h

theorem minimizeQueryParams_head (exec : GoStr → Option Response) (o : Options)
    (baseline : Response) (ord : Values → List GoStr) : ∀ (fuel : Nat) (c : CurlCommand),
    (minimizeQueryParams exec o baseline ord fuel c).args.head? = c.args.head? := by
  intro fuel
  induction fuel with
  | zero => intro c; rfl
  | succ n ihf =>
    intro c
    unfold minimizeQueryParams
    split
    · rfl
    next u hu =>
      split
      · rfl
      next pu hpu =>
        split
        · rfl
        · split
          · rfl
          next q hq =>
            split
            · rfl
            next c2 hc2 =>
              rw [ihf c2]
              exact qpTryParams_head exec o baseline c u pu q
                (findURL_ok_pos c u hu) _ c2 hc2

/-- C10.  The program-name token at index 0 is preserved: argument removal
is a no-op at index 0, cookie-entry removal rejects index 0, query-parameter
removal only replaces the URL word (at an index at least 1) keeping length
and first token, and all three minimization stages preserve the first
token, so the argument list keeps its original head (and hence stays
nonempty) throughout minimization. -/
theorem program_name_preserved :
    (∀ c : CurlCommand, c.RemoveArg 0 = c)
    ∧ (∀ (c : CurlCommand) (name : GoStr) (hd : Bool),
        c.RemoveCookieFromArg 0 name hd = .error (gs "invalid argument index"))
    ∧ (∀ (c : CurlCommand) (p : GoStr) (c2 : CurlCommand), c.RemoveQueryParam p = .ok c2 →
        c2.args.length = c.args.length ∧ c2.args.head? = c.args.head?)
    ∧ (∀ (exec : GoStr → Option Response) (o : Options) (baseline : Response) (fuel : Nat)
        (c : CurlCommand),
        (minimizeHeaders exec o baseline fuel c).args.head? = c.args.head?
        ∧ (minimizeCookies exec o baseline fuel c).args.head? = c.args.head?)
    ∧ (∀ (exec : GoStr → Option Response) (o : Options) (baseline : Response)
        (ord : Values → List GoStr) (fuel : Nat) (c : CurlCommand),
        (minimizeQueryParams exec o baseline ord fuel c).args.head? = c.args.head?) := by
  refine ⟨?_, ?_, ?_, ?_, ?_⟩
  · intro c
    unfold CurlCommand.RemoveArg
    rw [if_pos (by simp)]
  · intro c name hd
    unfold CurlCommand.RemoveCookieFromArg
    rw [if_pos (by simp)]
  · intro c p c2 h
    unfold CurlCommand.RemoveQueryParam at h
    split at h
    · cases h
    next u hu =>
      dsimp only at h
      split at h
      · cases h
      next pu hpu =>
        split at h
        · injection h with h2
          rw [← h2]
          exact ⟨rfl, rfl⟩
        · split at h
          · cases h
          next q hq =>
            injection h with h2
            rw [← h2]
            exact ⟨by simp, set_head c.args u _ (findURL_ok_pos c u hu)⟩
  · intro exec o baseline fuel c
    exact ⟨minimizeHeaders_head exec o baseline fuel c,
      minimizeCookies_head exec o baseline fuel c⟩
  · intro exec o baseline ord fuel c
    exact minimizeQueryParams_head exec o baseline ord fuel c

/-- C10 witness: concrete index-0 no-op and a concrete query-parameter
removal preserving length and head. -/
theorem program_name_preserved_witness :
    (⟨[gs "curl", gs "'http://e?a=1&b=2'"]⟩ : CurlCommand).RemoveArg 0
        = ⟨[gs "curl", gs "'http://e?a=1&b=2'"]⟩
    ∧ (⟨[gs "curl", gs "'http://e?b=2'"]⟩ : CurlCommand).args.length
        = (⟨[gs "curl", gs "'http://e?a=1&b=2'"]⟩ : CurlCommand).args.length
    ∧ (⟨[gs "curl", gs "'http://e?b=2'"]⟩ : CurlCommand).args.head?
        = (⟨[gs "curl", gs "'http://e?a=1&b=2'"]⟩ : CurlCommand).args.head? :=
  ⟨program_name_preserved.1 ⟨[gs "curl", gs "'http://e?a=1&b=2'"]⟩,
    program_name_preserved.2.2.1 ⟨[gs "curl", gs "'http://e?a=1&b=2'"]⟩ (gs "a")
      ⟨[gs "curl", gs "'http://e?b=2'"]⟩ rfl⟩

theorem shouldEsc_toNat_lt (c : Char) (h : shouldEsc c = true) : c.toNat < 128 := by
  simp only [shouldEsc, Bool.or_eq_true, decide_eq_true_eq, List.elem_iff,
    escSpecials] at h
  rcases h with (h | h) | h
  · fin_cases h <;> decide
  · omega
  · omega

theorem badQueryChar_shouldEsc (c : Char) (h : badQueryChar c = true) :
    shouldEsc c = true := by
  simp only [badQueryChar, Bool.or_eq_true, decide_eq_true_eq] at h
  rcases h with ((((((h | h) | h) | h) | h) | h) | h) <;> subst h <;> decide

theorem ctl_shouldEsc (c : Char) (h : isCtlChar c = true) : shouldEsc c = true := by
  simp only [isCtlChar, Bool.or_eq_true, decide_eq_true_eq] at h
  simp only [shouldEsc, Bool.or_eq_true, decide_eq_true_eq]
  tauto

theorem hexDig_ok (n : Nat) (h : n < 16) :
    badQueryChar (hexDig n) = false ∧ isCtlChar (hexDig n) = false := by
  interval_cases n <;> exact ⟨by decide, by decide⟩

theorem escChar_ok (c : Char) : ∀ c2 ∈ escChar c,
    badQueryChar c2 = false ∧ isCtlChar c2 = false := by
  intro c2 hc2
  unfold escChar at hc2
  by_cases hsp : c = ' '
  · rw [if_pos hsp] at hc2
    have h2 : c2 = '+' := by simpa using hc2
    subst h2
    exact ⟨by decide, by decide⟩
  · rw [if_neg hsp] at hc2
    by_cases hse : shouldEsc c = true
    · rw [if_pos hse] at hc2
      have hlt := shouldEsc_toNat_lt c hse
      have h2 : c2 = '%' ∨ c2 = hexDig (c.toNat / 16) ∨ c2 = hexDig (c.toNat % 16) := by
        simpa using hc2
      rcases h2 with h2 | h2 | h2 <;> subst h2
      · exact ⟨by decide, by decide⟩
      · exact hexDig_ok _ (by omega)
      · exact hexDig_ok _ (by omega)
    · rw [if_neg hse] at hc2
      have h2 : c2 = c := by simpa using hc2
      subst h2
      constructor
      · cases hbc : badQueryChar c2
        · rfl
        · exact absurd (badQueryChar_shouldEsc c2 hbc) hse
      · cases hct : isCtlChar c2
        · rfl
        · exact absurd (ctl_shouldEsc c2 hct) hse

theorem escQ_ok (s : GoStr) : ∀ c2 ∈ escQ s,
    badQueryChar c2 = false ∧ isCtlChar c2 = false := by
  induction s with
  | nil => intro c2 hc2; simp [escQ] at hc2
  | cons c rest ih =>
    intro c2 hc2
    have : escQ (c :: rest) = escChar c ++ escQ rest := rfl
    rw [this] at hc2
    rcases List.mem_append.mp hc2 with h | h
    · exact escChar_ok c c2 h
    · exact ih c2 h

theorem hexVal_hexDig (n : Nat) (h : n < 16) : hexVal (hexDig n) = some n := by
  interval_cases n <;> decide

theorem unescQ_escQ (s : GoStr) : unescQ (escQ s) = some s := by
  induction s with
  | nil => rfl
  | cons c rest ih =>
    have hstep : escQ (c :: rest) = escChar c ++ escQ rest := rfl
    rw [hstep]
    unfold escChar
    by_cases hsp : c = ' '
    · rw [if_pos hsp]
      subst hsp
      show unescQ ('+' :: escQ rest) = _
      unfold unescQ
      rw [if_neg (by decide), if_pos rfl, ih]
      rfl
    · by_cases hse : shouldEsc c = true
      · rw [if_neg hsp, if_pos hse]
        have hlt := shouldEsc_toNat_lt c hse
        show unescQ ('%' :: hexDig (c.toNat / 16) :: hexDig (c.toNat % 16) :: escQ rest) = _
        unfold unescQ
        rw [if_pos rfl]
        dsimp only
        rw [hexVal_hexDig (c.toNat / 16) (by omega), hexVal_hexDig (c.toNat % 16) (by omega)]
        simp only [ih, Option.map_some]
        have h16 : 16 * (c.toNat / 16) + c.toNat % 16 = c.toNat := by omega
        rw [h16, Char.ofNat_toNat]
        rfl
      · rw [if_neg hsp, if_neg hse]
        show unescQ (c :: escQ rest) = _
        have hc1 : c ≠ '%' := by
          intro h; subst h; exact hse (by decide)
        have hc2 : c ≠ '+' := by
          intro h; subst h; exact hse (by decide)
        unfold unescQ
        rw [if_neg hc1, if_neg hc2, ih]
        rfl

theorem escQ_inj (a b : GoStr) (h : escQ a = escQ b) : a = b := by
  have ha := unescQ_escQ a
  rw [h, unescQ_escQ b] at ha
  injection ha with h2
  exact h2.symm

theorem cutAt_not_mem (sep : Char) (l : GoStr) (h : sep ∉ l) : cutAt sep l = (l, none) := by
  induction l with
  | nil => rfl
  | cons c rest ih =>
    unfold cutAt
    rw [if_neg (by rintro rfl; exact h (by simp))]
    rw [ih (fun hm => h (by simp [hm]))]

theorem cutAt_append (sep : Char) (a b : GoStr) (h : sep ∉ a) :
    cutAt sep (a ++ sep :: b) = (a, some b) := by
  induction a with
  | nil =>
    show cutAt sep (sep :: b) = _
    unfold cutAt
    rw [if_pos rfl]
  | cons c rest ih =>
    show cutAt sep (c :: (rest ++ sep :: b)) = _
    unfold cutAt
    rw [if_neg (by rintro rfl; exact h (by simp))]
    rw [ih (fun hm => h (by simp [hm]))]

theorem splitOnChar_ne_nil (sep : Char) (s : GoStr) : splitOnChar sep s ≠ [] := by
  induction s with
  | nil => simp [splitOnChar]
  | cons c rest ih =>
    show (if c = sep then [] :: splitOnChar sep rest
      else match splitOnChar sep rest with
        | h :: t => (c :: h) :: t
        | [] => [[c]]) ≠ []
    by_cases hc : c = sep
    · simp [hc]
    · rw [if_neg hc]
      rcases hsp : splitOnChar sep rest with _ | ⟨h2, t2⟩
      · simp
      · simp

theorem splitOnChar_cons (sep c : Char) (s : GoStr) :
    splitOnChar sep (c :: s) = if c = sep then [] :: splitOnChar sep s
      else (c :: (splitOnChar sep s).headD []) :: (splitOnChar sep s).tail := by
  show (if c = sep then [] :: splitOnChar sep s
    else match splitOnChar sep s with
      | h :: t => (c :: h) :: t
      | [] => [[c]]) = _
  by_cases hc : c = sep
  · simp [hc]
  · rw [if_neg hc, if_neg hc]
    rcases hsp : splitOnChar sep s with _ | ⟨h2, t2⟩
    · exact absurd hsp (splitOnChar_ne_nil sep s)
    · simp

theorem splitOnChar_no_sep (sep : Char) (s : GoStr) (h : sep ∉ s) :
    splitOnChar sep s = [s] := by
  induction s with
  | nil => rfl
  | cons c rest ih =>
    rw [splitOnChar_cons, if_neg (by rintro rfl; exact h (by simp)),
      ih (fun hm => h (by simp [hm]))]
    simp

theorem splitOnChar_append (sep : Char) (a b : GoStr) (h : sep ∉ a) :
    splitOnChar sep (a ++ sep :: b) = a :: splitOnChar sep b := by
  induction a with
  | nil =>
    show splitOnChar sep (sep :: b) = [] :: splitOnChar sep b
    rw [splitOnChar_cons, if_pos rfl]
  | cons c rest ih =>
    show splitOnChar sep (c :: (rest ++ sep :: b)) = _
    rw [splitOnChar_cons, if_neg (by rintro rfl; exact h (by simp)),
      ih (fun hm => h (by simp [hm]))]
    simp

theorem splitOnChar_join (sep : Char) (segs : List GoStr) (hne : segs ≠ [])
    (h : ∀ s ∈ segs, sep ∉ s) :
    splitOnChar sep (joinWith [sep] segs) = segs := by
  induction segs with
  | nil => cases hne rfl
  | cons s rest ih =>
    cases rest with
    | nil => exact splitOnChar_no_sep sep s (h s (by simp))
    | cons s2 r2 =>
      have hj : joinWith [sep] (s :: s2 :: r2) = s ++ sep :: joinWith [sep] (s2 :: r2) := by
        show s ++ [sep] ++ joinWith [sep] (s2 :: r2) = _
        simp
      rw [hj, splitOnChar_append sep s _ (h s (by simp)),
        ih (by simp) (fun x hx => h x (List.mem_cons_of_mem s hx))]

theorem joinWith_amp_ne_nil (sep : Char) (segs : List GoStr) (hne : segs ≠ [])
    (h : ∀ s ∈ segs, s ≠ []) : joinWith [sep] segs ≠ [] := by
  cases segs with
  | nil => cases hne rfl
  | cons s rest =>
    cases rest with
    | nil => exact h s (by simp)
    | cons s2 r2 =>
      show s ++ [sep] ++ joinWith [sep] (s2 :: r2) ≠ []
      simp [h s (by simp)]

theorem insertSorted_mem (k x : GoStr) (l : List GoStr) :
    x ∈ insertSorted k l ↔ x = k ∨ x ∈ l := by
  induction l with
  | nil => simp [insertSorted]
  | cons y ys ih =>
    unfold insertSorted
    by_cases hle : goStrLe k y
    · simp [hle]
    · rw [if_neg hle]
      simp [ih]
      tauto

theorem sortKeys_mem (x : GoStr) (l : List GoStr) : x ∈ sortKeys l ↔ x ∈ l := by
  induction l with
  | nil => simp [sortKeys]
  | cons y ys ih =>
    show x ∈ insertSorted y (sortKeys ys) ↔ _
    rw [insertSorted_mem, ih]
    simp

theorem valuesAdd_keys_sup (vs : Values) (k v k0 : GoStr)
    (h : k0 ∈ vs.map (fun kv => kv.1)) :
    k0 ∈ (valuesAdd vs k v).map (fun kv => kv.1) := by
  unfold valuesAdd
  split
  · obtain ⟨kv, hkv, hk0⟩ := List.mem_map.mp h
    apply List.mem_map.mpr
    by_cases hkk : kv.1 = k
    · exact ⟨(kv.1, kv.2 ++ [v]), List.mem_map.mpr ⟨kv, hkv, by simp [hkk]⟩, hk0⟩
    · exact ⟨kv, List.mem_map.mpr ⟨kv, hkv, by simp [hkk]⟩, hk0⟩
  · simp only [List.map_append]
    exact List.mem_append.mpr (Or.inl h)

theorem valuesAdd_keys_self (vs : Values) (k v : GoStr) :
    k ∈ (valuesAdd vs k v).map (fun kv => kv.1) := by
  unfold valuesAdd
  split
  next hany =>
    obtain ⟨kv, hkv, hq⟩ := List.any_eq_true.mp hany
    simp only [decide_eq_true_eq] at hq
    apply List.mem_map.mpr
    exact ⟨(kv.1, kv.2 ++ [v]), List.mem_map.mpr ⟨kv, hkv, by simp [hq]⟩, hq⟩
  · simp

theorem valuesGet_ne_nil (vs : Values) (k : GoStr) (hv : ∀ kv ∈ vs, kv.2 ≠ [])
    (h : k ∈ vs.map (fun kv => kv.1)) : valuesGet vs k ≠ [] := by
  unfold valuesGet
  obtain ⟨kv, hkv, hk⟩ := List.mem_map.mp h
  rcases hf : vs.find? (fun kv => kv.1 = k) with _ | kv2
  · have := List.find?_eq_none.mp hf kv hkv
    simp [hk] at this
  · rw [hf]
    exact hv kv2 (List.mem_of_find?_eq_some hf)

theorem escQ_not_mem_bad (s : GoStr) (c : Char) (hc : badQueryChar c = true) : c ∉ escQ s := by
  intro hm
  have := (escQ_ok s c hm).1
  rw [hc] at this
  cases this

theorem querySegs_form (vs : Values) (ks : List GoStr) :
    ∀ s ∈ querySegs vs ks, ∃ k v, s = escQ k ++ '=' :: escQ v := by
  induction ks with
  | nil => intro s hs; simp [querySegs] at hs
  | cons k2 rest ih =>
    intro s hs
    have : querySegs vs (k2 :: rest)
        = (valuesGet vs k2).map (fun v => escQ k2 ++ '=' :: escQ v) ++ querySegs vs rest := rfl
    rw [this] at hs
    rcases List.mem_append.mp hs with h | h
    · obtain ⟨v, _, hv2⟩ := List.mem_map.mp h
      exact ⟨k2, v, hv2.symm⟩
    · exact ih s h

theorem querySegs_mem (vs : Values) (ks : List GoStr) (k v : GoStr) (hk : k ∈ ks)
    (hv : v ∈ valuesGet vs k) : escQ k ++ '=' :: escQ v ∈ querySegs vs ks := by
  induction ks with
  | nil => simp at hk
  | cons k2 rest ih =>
    have hstep : querySegs vs (k2 :: rest)
        = (valuesGet vs k2).map (fun v => escQ k2 ++ '=' :: escQ v) ++ querySegs vs rest := rfl
    rw [hstep]
    rcases List.mem_cons.mp hk with h | h
    · subst h
      exact List.mem_append.mpr (Or.inl (List.mem_map.mpr ⟨v, hv, rfl⟩))
    · exact List.mem_append.mpr (Or.inr (ih h))

theorem parseSeg_enc (k v : GoStr) : parseSeg (escQ k ++ '=' :: escQ v) = some (k, v) := by
  unfold parseSeg
  rw [if_neg (by
    intro hcon
    rcases List.mem_append.mp (List.elem_iff.mp hcon) with h | h
    · exact escQ_not_mem_bad k ';' (by decide) h
    · rcases List.mem_cons.mp h with h2 | h2
      · cases h2
      · exact escQ_not_mem_bad v ';' (by decide) h2)]
  rw [cutAt_append '=' (escQ k) (escQ v) (escQ_not_mem_bad k '=' (by decide))]
  dsimp only
  rw [show ((some (escQ v)).getD []) = escQ v from rfl]
  rw [unescQ_escQ, unescQ_escQ]

theorem parse_fold (segs : List GoStr) :
    ∀ acc : Values,
    (∀ s ∈ segs, ∃ k v, s = escQ k ++ '=' :: escQ v) →
    ∃ vs, segs.foldl (fun acc seg =>
        match acc with
        | none => none
        | some vs =>
          if seg = [] then some vs
          else match parseSeg seg with
            | none => none
            | some kv => some (valuesAdd vs kv.1 kv.2)) (some acc) = some vs
      ∧ (∀ k0, k0 ∈ acc.map (fun kv => kv.1) → k0 ∈ vs.map (fun kv => kv.1))
      ∧ (∀ k0 v0, (escQ k0 ++ '=' :: escQ v0) ∈ segs → k0 ∈ vs.map (fun kv => kv.1)) := by
  induction segs with
  | nil =>
    intro acc _
    exact ⟨acc, rfl, fun k0 h => h, fun k0 v0 h => by simp at h⟩
  | cons s rest ih =>
    intro acc h
    obtain ⟨k, v, hs⟩ := h s (by simp)
    subst hs
    have hne : (escQ k ++ '=' :: escQ v) ≠ [] := by simp
    rw [List.foldl_cons]
    dsimp only
    rw [if_neg hne, parseSeg_enc]
    dsimp only
    obtain ⟨vs, hfold, hacc, hsegs⟩ := ih (valuesAdd acc k v)
      (fun s hs => h s (List.mem_cons_of_mem _ hs))
    refine ⟨vs, hfold, ?_, ?_⟩
    · intro k0 hk0
      exact hacc k0 (valuesAdd_keys_sup acc k v k0 hk0)
    · intro k0 v0 hk0
      rcases List.mem_cons.mp hk0 with h2 | h2
      · have hcut := cutAt_append '=' (escQ k0) (escQ v0)
          (escQ_not_mem_bad k0 '=' (by decide))
        rw [h2, cutAt_append '=' (escQ k) (escQ v) (escQ_not_mem_bad k '=' (by decide))] at hcut
        have hkk : escQ k0 = escQ k := (congrArg Prod.fst hcut).symm
        have : k0 = k := escQ_inj k0 k hkk
        subst this
        exact hacc k0 (valuesAdd_keys_self acc k0 v)
      · exact hsegs k0 v0 h2

theorem parseQueryGo_encode (q2 : Values) (hv : ∀ kv ∈ q2, kv.2 ≠ [])
    (k0 : GoStr) (hk : k0 ∈ q2.map (fun kv => kv.1)) :
    encodeValues q2 ≠ []
    ∧ ∃ vs, parseQueryGo (encodeValues q2) = some vs ∧ k0 ∈ vs.map (fun kv => kv.1) := by
  have hkks : k0 ∈ sortKeys (q2.map (fun kv => kv.1)) := (sortKeys_mem _ _).mpr hk
  have hget : valuesGet q2 k0 ≠ [] := valuesGet_ne_nil q2 k0 hv hk
  obtain ⟨v0, hv0⟩ : ∃ v0, v0 ∈ valuesGet q2 k0 := by
    rcases hg : valuesGet q2 k0 with _ | ⟨a, r⟩
    · exact absurd hg hget
    · exact ⟨a, by simp [hg]⟩
  have hseg0 : escQ k0 ++ '=' :: escQ v0
      ∈ querySegs q2 (sortKeys (q2.map (fun kv => kv.1))) :=
    querySegs_mem q2 _ k0 v0 hkks hv0
  have hsegs_ne : querySegs q2 (sortKeys (q2.map (fun kv => kv.1))) ≠ [] := by
    intro hcon
    rw [hcon] at hseg0
    simp at hseg0
  have hforms := querySegs_form q2 (sortKeys (q2.map (fun kv => kv.1)))
  have hsne : ∀ s ∈ querySegs q2 (sortKeys (q2.map (fun kv => kv.1))), s ≠ [] := by
    intro s hs
    obtain ⟨k, v, hkv⟩ := hforms s hs
    subst hkv
    simp
  have hsamp : ∀ s ∈ querySegs q2 (sortKeys (q2.map (fun kv => kv.1))), '&' ∉ s := by
    intro s hs hcon
    obtain ⟨k, v, hkv⟩ := hforms s hs
    subst hkv
    rcases List.mem_append.mp hcon with h | h
    · exact escQ_not_mem_bad k '&' (by decide) h
    · rcases List.mem_cons.mp h with h2 | h2
      · cases h2
      · exact escQ_not_mem_bad v '&' (by decide) h2
  have hene : encodeValues q2 ≠ [] :=
    joinWith_amp_ne_nil '&' _ hsegs_ne hsne
  refine ⟨hene, ?_⟩
  unfold parseQueryGo
  rw [if_neg hene]
  unfold encodeValues
  rw [splitOnChar_join '&' _ hsegs_ne hsamp]
  obtain ⟨vs, hfold, _, hsegk⟩ := parse_fold _ [] hforms
  exact ⟨vs, hfold, hsegk k0 v0 hseg0⟩

theorem prefix_head (l1 l2 : GoStr) (h : l1 <+: l2) (c : Char) (hc : l1.head? = some c) :
    l2.head? = some c := by
  obtain ⟨t, ht⟩ := h
  subst ht
  cases l1 with
  | nil => simp at hc
  | cons a r => simpa using hc

theorem head_dropWhile_not (p : Char → Bool) (l : GoStr) (c : Char)
    (h : (l.dropWhile p).head? = some c) : p c = false := by
  induction l with
  | nil => simp at h
  | cons a r ih =>
    rw [List.dropWhile_cons] at h
    by_cases hp : p a = true
    · rw [if_pos hp] at h
      exact ih h
    · rw [if_neg hp] at h
      injection h with h2
      subst h2
      simpa using hp

theorem dropEnd_prefix (p : Char → Bool) (l : GoStr) : dropEnd p l <+: l := by
  unfold dropEnd
  have h := List.dropWhile_suffix (l := l.reverse) (p := p)
  obtain ⟨t, ht⟩ := h
  refine ⟨t.reverse, ?_⟩
  have := congrArg List.reverse ht
  simpa using this

theorem trim_head_not_quote (a : GoStr) (c : Char)
    (h : (trimQuotesGo a).head? = some c) : isQuoteChar c = false := by
  unfold trimQuotesGo at h
  have h2 := prefix_head _ _ ( dropEnd_prefix isQuoteChar (a.dropWhile isQuoteChar)) c h
  exact head_dropWhile_not isQuoteChar a c h2

theorem cutAt_fst_not_mem (sep : Char) (l : GoStr) : sep ∉ (cutAt sep l).1 := by
  induction l with
  | nil => simp [cutAt]
  | cons c rest ih =>
    unfold cutAt
    by_cases hc : c = sep
    · simp [hc]
    · rw [if_neg hc]
      simp only [List.mem_cons]
      rintro (h | h)
      · exact hc h.symm
      · exact ih h

theorem cutAt_fst_prefix (sep : Char) (l : GoStr) : (cutAt sep l).1 <+: l := by
  induction l with
  | nil => simp [cutAt]
  | cons c rest ih =>
    unfold cutAt
    by_cases hc : c = sep
    · simp [hc]
    · rw [if_neg hc]
      simpa using ih

theorem cutAt_eq_some (sep : Char) (l a b : GoStr) (h : cutAt sep l = (a, some b)) :
    l = a ++ sep :: b := by
  induction l generalizing a with
  | nil => simp [cutAt] at h
  | cons c rest ih =>
    unfold cutAt at h
    by_cases hc : c = sep
    · rw [if_pos hc] at h
      injection h with h1 h2
      subst hc
      rw [← h1]
      simp only [List.nil_append]
      injection h2 with h3
      rw [h3]
    · rw [if_neg hc] at h
      injection h with h1 h2
      rcases ha : (cutAt sep rest) with ⟨a2, b2⟩
      rw [ha] at h1 h2
      dsimp only at h1 h2
      have hrest := ih a2 (by rw [ha, h2])
      rw [← h1, hrest]
      simp

theorem dropEnd_append (p : Char → Bool) (a b : GoStr) :
    dropEnd p (a ++ b) = if dropEnd p b = [] then dropEnd p a else a ++ dropEnd p b := by
  unfold dropEnd
  rw [List.reverse_append, List.dropWhile_append]
  by_cases hb : (b.reverse.dropWhile p).isEmpty
  · rw [if_pos hb]
    have : b.reverse.dropWhile p = [] := by simpa [List.isEmpty_iff] using hb
    rw [if_pos (by simp [this])]
  · rw [if_neg hb]
    have hbne : b.reverse.dropWhile p ≠ [] := by
      simpa [List.isEmpty_iff] using hb
    rw [if_neg (by simpa using hbne)]
    simp

theorem trimQuotes_quoteSingle (X : GoStr) (hne : X ≠ [])
    (hhead : ∀ c, X.head? = some c → isQuoteChar c = false) :
    trimQuotesGo (quoteSingle X) = dropEnd isQuoteChar X := by
  unfold trimQuotesGo quoteSingle
  have hdw : ('\'' :: (X ++ ['\''])).dropWhile isQuoteChar = X ++ ['\''] := by
    rw [List.dropWhile_cons, if_pos (by decide)]
    apply dropWhile_eq_self_of_head
    intro c hc
    apply hhead
    cases X with
    | nil => cases hne rfl
    | cons a r => simpa using hc
  rw [show ('\'' :: X ++ ['\'']) = '\'' :: (X ++ ['\'']) from rfl, hdw]
  rw [dropEnd_append isQuoteChar X ['\'']]
  rw [if_pos (by decide)]

theorem queryKeys_rebuilt (before frag E : GoStr) (k0 : GoStr)
    (hbq : '?' ∉ before) (hbh : '#' ∉ before)
    (hbctl : ∀ c ∈ before, isCtlChar c = false)
    (hfctl : ∀ c ∈ frag, isCtlChar c = false)
    (hbhead : ∀ c, before.head? = some c → isQuoteChar c = false)
    (hEne : E ≠ [])
    (hEq : ∀ c ∈ E, isQuoteChar c = false) (hEh : '#' ∉ E)
    (hEctl : ∀ c ∈ E, isCtlChar c = false)
    (vs : Values) (hEp : parseQueryGo E = some vs)
    (hk : k0 ∈ vs.map (fun kv => kv.1)) :
    k0 ∈ queryKeysOfArg (quoteSingle (urlToString ⟨before, E, frag⟩)) := by
  have hXdef : urlToString ⟨before, E, frag⟩
      = before ++ '?' :: E ++ (if frag = [] then [] else '#' :: frag) := by
    unfold urlToString
    rw [if_neg hEne]
  have hXne : before ++ '?' :: E ++ (if frag = [] then [] else '#' :: frag) ≠ [] := by
    simp
  have hXhead : ∀ c, (before ++ '?' :: E
      ++ (if frag = [] then [] else '#' :: frag)).head? = some c → isQuoteChar c = false := by
    intro c hc
    cases hbe : before with
    | nil =>
      rw [hbe] at hc
      simp only [List.nil_append, List.cons_append, List.head?_cons] at hc
      injection hc with h2
      subst h2
      decide
    | cons b0 r =>
      rw [hbe] at hc
      simp only [List.cons_append, List.head?_cons] at hc
      injection hc with h2
      subst h2
      exact hbhead b0 (by rw [hbe]; rfl)
  unfold queryKeysOfArg
  rw [hXdef, trimQuotes_quoteSingle _ hXne hXhead]
  have hnq : '#' ∉ before ++ '?' :: E := by
    intro hcon
    rcases List.mem_append.mp hcon with h | h
    · exact hbh h
    · rcases List.mem_cons.mp h with h2 | h2
      · cases h2
      · exact hEh h2
  have hctl2 : ∀ c ∈ before ++ '?' :: E, isCtlChar c = false := by
    intro c hc
    rcases List.mem_append.mp hc with h | h
    · exact hbctl c h
    · rcases List.mem_cons.mp h with h2 | h2
      · subst h2; decide
      · exact hEctl c h2
  by_cases hfr : frag = []
  · rw [if_pos hfr]
    rw [List.append_nil]
    have hlast : ∀ c, (before ++ '?' :: E).getLast? = some c → isQuoteChar c = false := by
      intro c hc
      rw [List.getLast?_append_of_ne_nil _ (by simp)] at hc
      have hmem := List.mem_of_mem_getLast? hc
      rcases List.mem_cons.mp hmem with h2 | h2
      · subst h2
        cases E with
        | nil => cases hEne rfl
        | cons e0 r =>
          rw [List.getLast?_cons_cons] at hc
          have := List.mem_of_mem_getLast? hc
          exact hEq _ this
      · exact hEq c h2
    rw [dropEnd_eq_self_of_last isQuoteChar _ hlast]
    unfold urlParseGo
    rw [if_neg (by
      intro hcon
      obtain ⟨c, hc1, hc2⟩ := List.any_eq_true.mp hcon
      rw [hctl2 c hc1] at hc2
      cases hc2)]
    rw [cutAt_not_mem '#' _ hnq]
    dsimp only
    rw [cutAt_append '?' before E hbq]
    dsimp only [Option.getD_some]
    rw [hEp]
    exact hk
  · rw [if_neg hfr]
    have hD : dropEnd isQuoteChar ('#' :: frag)
        = if dropEnd isQuoteChar frag = [] then ['#'] else '#' :: dropEnd isQuoteChar frag := by
      have h1 : ('#' :: frag) = ['#'] ++ frag := rfl
      rw [h1, dropEnd_append]
      by_cases hdf : dropEnd isQuoteChar frag = []
      · rw [if_pos hdf, if_pos hdf]
        decide
      · rw [if_neg hdf, if_neg hdf]
        rfl
    obtain ⟨frag2, hfrag2, hfrag2p⟩ : ∃ f2, dropEnd isQuoteChar ('#' :: frag) = '#' :: f2
        ∧ f2 <+: frag := by
      rw [hD]
      by_cases hdf : dropEnd isQuoteChar frag = []
      · exact ⟨[], by rw [if_pos hdf], by simp⟩
      · exact ⟨dropEnd isQuoteChar frag, by rw [if_neg hdf], dropEnd_prefix _ _⟩
    rw [dropEnd_append, hfrag2]
    rw [if_neg (by simp)]
    have hf2ctl : ∀ c ∈ frag2, isCtlChar c = false := by
      intro c hc
      exact hfctl c (hfrag2p.subset hc)
    unfold urlParseGo
    rw [if_neg (by
      intro hcon
      obtain ⟨c, hc1, hc2⟩ := List.any_eq_true.mp hcon
      rcases List.mem_append.mp hc1 with h | h
      · rw [hctl2 c h] at hc2; cases hc2
      · rcases List.mem_cons.mp h with h2 | h2
        · subst h2; simp [isCtlChar] at hc2
        · rw [hf2ctl c h2] at hc2; cases hc2)]
    rw [cutAt_append '#' _ frag2 hnq]
    dsimp only
    rw [cutAt_append '?' before E hbq]
    dsimp only [Option.getD_some]
    rw [hEp]
    exact hk

theorem joinWith_mem (sep : Char) (segs : List GoStr) (c : Char)
    (h : c ∈ joinWith [sep] segs) : c = sep ∨ ∃ s ∈ segs, c ∈ s := by
  induction segs with
  | nil => simp [joinWith] at h
  | cons s rest ih =>
    cases rest with
    | nil =>
      right
      exact ⟨s, by simp, h⟩
    | cons s2 r2 =>
      have hj : joinWith [sep] (s :: s2 :: r2) = s ++ sep :: joinWith [sep] (s2 :: r2) := by
        show s ++ [sep] ++ joinWith [sep] (s2 :: r2) = _
        simp
      rw [hj] at h
      rcases List.mem_append.mp h with h2 | h2
      · exact Or.inr ⟨s, by simp, h2⟩
      · rcases List.mem_cons.mp h2 with h3 | h3
        · exact Or.inl h3
        · rcases ih h3 with h4 | ⟨s3, hs3, hc3⟩
          · exact Or.inl h4
          · exact Or.inr ⟨s3, List.mem_cons_of_mem s hs3, hc3⟩

theorem encodeValues_chars (q2 : Values) : ∀ c ∈ encodeValues q2,
    isQuoteChar c = false ∧ c ≠ '#' ∧ isCtlChar c = false := by
  intro c hc
  unfold encodeValues at hc
  rcases joinWith_mem '&' _ c hc with h | ⟨s, hs, hcs⟩
  · subst h
    exact ⟨by decide, by decide, by decide⟩
  · obtain ⟨k, v, hskv⟩ := querySegs_form q2 _ s hs
    subst hskv
    rcases List.mem_append.mp hcs with h2 | h2
    · have := escQ_ok k c h2
      simp only [badQueryChar, Bool.or_eq_false_iff] at this
      refine ⟨?_, ?_, this.2⟩
      · simp only [isQuoteChar, Bool.or_eq_false_iff]
        exact ⟨this.1.1.2, this.1.2⟩
      · intro hcon
        subst hcon
        have hb := this.1.1.1.1.2
        simp at hb
    · rcases List.mem_cons.mp h2 with h3 | h3
      · subst h3
        exact ⟨by decide, by decide, by decide⟩
      · have := escQ_ok v c h3
        simp only [badQueryChar, Bool.or_eq_false_iff] at this
        refine ⟨?_, ?_, this.2⟩
        · simp only [isQuoteChar, Bool.or_eq_false_iff]
          exact ⟨this.1.1.2, this.1.2⟩
        · intro hcon
          subst hcon
          have hb := this.1.1.1.1.2
          simp at hb

theorem valuesAdd_wf (vs : Values) (k v : GoStr) (h : ∀ kv ∈ vs, kv.2 ≠ []) :
    ∀ kv ∈ valuesAdd vs k v, kv.2 ≠ [] := by
  intro kv hkv
  unfold valuesAdd at hkv
  split at hkv
  · obtain ⟨kv0, hkv0, heq⟩ := List.mem_map.mp hkv
    by_cases hk : kv0.1 = k
    · rw [if_pos hk] at heq
      rw [← heq]
      simp
    · rw [if_neg hk] at heq
      rw [← heq]
      exact h kv0 hkv0
  · rcases List.mem_append.mp hkv with h2 | h2
    · exact h kv h2
    · have : kv = (k, [v]) := by simpa using h2
      rw [this]
      simp

theorem qfold_none (segs : List GoStr) :
    segs.foldl (fun acc seg =>
      match acc with
      | none => none
      | some vs =>
        if seg = [] then some vs
        else match parseSeg seg with
          | none => none
          | some kv => some (valuesAdd vs kv.1 kv.2)) none = none := by
  induction segs with
  | nil => rfl
  | cons s rest ih => simpa using ih

theorem qfold_wf (segs : List GoStr) : ∀ (acc vs : Values),
    (∀ kv ∈ acc, kv.2 ≠ []) →
    segs.foldl (fun acc seg =>
      match acc with
      | none => none
      | some vs =>
        if seg = [] then some vs
        else match parseSeg seg with
          | none => none
          | some kv => some (valuesAdd vs kv.1 kv.2)) (some acc) = some vs →
    ∀ kv ∈ vs, kv.2 ≠ [] := by
  induction segs with
  | nil =>
    intro acc vs hacc h
    injection h with h2
    rw [← h2]
    exact hacc
  | cons s rest ih =>
    intro acc vs hacc h
    rw [List.foldl_cons] at h
    dsimp only at h
    by_cases hse : s = []
    · rw [if_pos hse] at h
      exact ih acc vs hacc h
    · rw [if_neg hse] at h
      rcases hps : parseSeg s with _ | kv0
      · rw [hps] at h
        rw [qfold_none] at h
        cases h
      · rw [hps] at h
        exact ih (valuesAdd acc kv0.1 kv0.2) vs (valuesAdd_wf acc kv0.1 kv0.2 hacc) h

theorem parseQueryGo_wf (s : GoStr) (vs : Values) (h : parseQueryGo s = some vs) :
    ∀ kv ∈ vs, kv.2 ≠ [] := by
  unfold parseQueryGo at h
  split at h
  · injection h with h2
    rw [← h2]
    intro kv hkv
    simp at hkv
  · exact qfold_wf _ [] vs (by simp) h

theorem valuesDel_keys (q : Values) (p k0 : GoStr) (hne : k0 ≠ p)
    (h : k0 ∈ q.map (fun kv => kv.1)) :
    k0 ∈ (valuesDel q p).map (fun kv => kv.1) := by
  obtain ⟨kv, hkv, hk⟩ := List.mem_map.mp h
  apply List.mem_map.mpr
  refine ⟨kv, ?_, hk⟩
  unfold valuesDel
  apply List.mem_filter.mpr
  refine ⟨hkv, ?_⟩
  simp only [decide_eq_true_eq]
  rw [hk]
  exact hne

theorem valuesDel_wf (q : Values) (p : GoStr) (h : ∀ kv ∈ q, kv.2 ≠ []) :
    ∀ kv ∈ valuesDel q p, kv.2 ≠ [] := by
  intro kv hkv
  exact h kv (List.mem_of_mem_filter hkv)
theorem getD_set_ne (l : List GoStr) (u i : Nat) (x : GoStr) (h : i ≠ u) :
    (l.set u x).getD i [] = l.getD i [] := by
  rw [List.getD_eq_getElem?_getD, List.getD_eq_getElem?_getD, List.getElem?_set_ne (by omega)]

theorem getD_set_self (l : List GoStr) (u : Nat) (x : GoStr) (h : u < l.length) :
    (l.set u x).getD u [] = x := by
  rw [List.getD_eq_getElem?_getD, List.getElem?_set_self h]
  rfl
theorem commit_preserves (c : CurlCommand) (u : Nat) (pu : UrlModel) (q : Values) (p : GoStr)
    (hpu : urlParseGo (trimQuotesGo (c.args.getD u [])) = some pu)
    (hq : parseQueryGo pu.rawQuery = some q)
    (hp : p ≠ authKey) :
    ∀ i, authKey ∈ queryKeysOfArg (c.args.getD i []) →
      authKey ∈ queryKeysOfArg
        ((c.args.set u
          (quoteSingle (urlToString { pu with rawQuery := encodeValues (valuesDel q p) }))).getD i []) := by
  intro i hi
  by_cases hiu : i = u
  · subst hiu
    by_cases hlen : i < c.args.length
    · rw [getD_set_self _ _ _ hlen]
      have hk : authKey ∈ q.map (fun kv => kv.1) := by
        unfold queryKeysOfArg at hi
        rw [hpu] at hi
        dsimp only at hi
        rw [hq] at hi
        exact hi
      have hwf := parseQueryGo_wf _ q hq
      have hkdel := valuesDel_keys q p authKey (Ne.symm hp) hk
      have hwf2 := valuesDel_wf q p hwf
      obtain ⟨hEne, vs, hEp, hkvs⟩ := parseQueryGo_encode (valuesDel q p) hwf2 authKey hkdel
      have hEchars := encodeValues_chars (valuesDel q p)
      have hEq : ∀ c2 ∈ encodeValues (valuesDel q p), isQuoteChar c2 = false :=
        fun c2 hc2 => (hEchars c2 hc2).1
      have hEh : '#' ∉ encodeValues (valuesDel q p) :=
        fun hmem => (hEchars '#' hmem).2.1 rfl
      have hEctl : ∀ c2 ∈ encodeValues (valuesDel q p), isCtlChar c2 = false :=
        fun c2 hc2 => (hEchars c2 hc2).2.2
      unfold urlParseGo at hpu
      by_cases hctl : (trimQuotesGo (c.args.getD i [])).any isCtlChar
      · rw [if_pos hctl] at hpu
        exact absurd hpu (by simp)
      · rw [if_neg hctl] at hpu
        dsimp only at hpu
        injection hpu with h3
        subst h3
        have hsctl : ∀ c2 ∈ trimQuotesGo (c.args.getD i []), isCtlChar c2 = false := by
          intro c2 hc2
          by_contra hcc
          exact hctl (List.any_eq_true.mpr ⟨c2, hc2, by simpa using hcc⟩)
        have hpre1 : (cutAt '?' (cutAt '#' (trimQuotesGo (c.args.getD i []))).1).1
            <+: (cutAt '#' (trimQuotesGo (c.args.getD i []))).1 := cutAt_fst_prefix _ _
        have hpre2 : (cutAt '#' (trimQuotesGo (c.args.getD i []))).1
            <+: trimQuotesGo (c.args.getD i []) := cutAt_fst_prefix _ _
        have hpre : (cutAt '?' (cutAt '#' (trimQuotesGo (c.args.getD i []))).1).1
            <+: trimQuotesGo (c.args.getD i []) := hpre1.trans hpre2
        have hbq := cutAt_fst_not_mem '?' (cutAt '#' (trimQuotesGo (c.args.getD i []))).1
        have hbh : '#' ∉ (cutAt '?' (cutAt '#' (trimQuotesGo (c.args.getD i []))).1).1 :=
          fun hmem => cutAt_fst_not_mem '#' _ (hpre1.subset hmem)
        have hbctl : ∀ c2 ∈ (cutAt '?' (cutAt '#' (trimQuotesGo (c.args.getD i []))).1).1,
            isCtlChar c2 = false := fun c2 hc2 => hsctl c2 (hpre.subset hc2)
        have hbhead : ∀ c2, ((cutAt '?' (cutAt '#' (trimQuotesGo (c.args.getD i []))).1).1).head?
            = some c2 → isQuoteChar c2 = false := by
          intro c2 hc2
          exact trim_head_not_quote _ c2 (prefix_head _ _ hpre c2 hc2)
        have hfctl : ∀ c2 ∈ ((cutAt '#' (trimQuotesGo (c.args.getD i []))).2).getD [],
            isCtlChar c2 = false := by
          rcases hc2 : (cutAt '#' (trimQuotesGo (c.args.getD i []))).2 with _ | b
          · intro c2 hc2m
            simp at hc2m
          · intro c2 hc2m
            simp only [Option.getD_some] at hc2m
            have hsplit := cutAt_eq_some '#' (trimQuotesGo (c.args.getD i []))
              (cutAt '#' (trimQuotesGo (c.args.getD i []))).1 b (by rw [← hc2])
            apply hsctl
            rw [hsplit]
            exact List.mem_append.mpr (Or.inr (List.mem_cons_of_mem _ hc2m))
        exact queryKeys_rebuilt _ _ _ authKey hbq hbh hbctl hfctl hbhead hEne hEq hEh hEctl
          vs hEp hkvs
    · have hnil : c.args.getD i [] = [] := by
        rw [List.getD_eq_getElem?_getD, List.getElem?_eq_none (by omega)]
        rfl
      rw [hnil] at hi
      exact absurd hi (by decide)
  · rw [getD_set_ne _ _ _ _ hiu]
    exact hi
theorem qpTryParams_preserves (exec : GoStr → Option Response) (o : Options) (baseline : Response)
    (c : CurlCommand) (u : Nat) (pu : UrlModel) (q : Values)
    (hpu : urlParseGo (trimQuotesGo (c.args.getD u [])) = some pu)
    (hq : parseQueryGo pu.rawQuery = some q) :
    ∀ (ps : List GoStr) (c2 : CurlCommand),
      qpTryParams exec o baseline c u pu q ps = some c2 →
      ∀ i, authKey ∈ queryKeysOfArg (c.args.getD i []) →
        authKey ∈ queryKeysOfArg (c2.args.getD i []) := by
  intro ps
  induction ps with
  | nil =>
    intro c2 h
    exact absurd h (by simp [qpTryParams])
  | cons param rest ih =>
    intro c2 h i hi
    unfold qpTryParams at h
    by_cases hpa : param = authKey
    · rw [if_pos hpa] at h
      exact ih c2 h i hi
    · rw [if_neg hpa] at h
      dsimp only at h
      split at h
      next htest =>
        injection h with h2
        subst h2
        exact commit_preserves c u pu q param hpu hq hpa i hi
      next htest =>
        exact ih c2 h i hi

theorem minimizeQueryParams_preserves (exec : GoStr → Option Response) (o : Options)
    (baseline : Response) (ord : Values → List GoStr) :
    ∀ (n : Nat) (c : CurlCommand) (i : Nat),
      authKey ∈ queryKeysOfArg (c.args.getD i []) →
      authKey ∈ queryKeysOfArg ((minimizeQueryParams exec o baseline ord n c).args.getD i []) := by
  intro n
  induction n with
  | zero =>
    intro c i hi
    exact hi
  | succ n ih =>
    intro c i hi
    unfold minimizeQueryParams
    split
    next => exact hi
    next urlIndex hfind =>
      split
      next => exact hi
      next parsedURL hparse =>
        split
        next => exact hi
        next hne =>
          split
          next => exact hi
          next query hquery =>
            split
            next => exact hi
            next c2 htry =>
              exact ih c2 i (qpTryParams_preserves exec o baseline c urlIndex parsedURL query
                hparse hquery (ord query) c2 htry i hi)

/-- C2: the protected query key `auth_key` is never proposed by the query
pass: the candidate loop skips it, the query pass preserves the presence of
`auth_key` among the query keys of every argument position, and the full
engine with the header and cookie passes disabled returns an invocation
that still carries `auth_key` at every position that had it. -/
theorem auth_key_retained :
    (∀ (exec : GoStr → Option Response) (o : Options) (baseline : Response)
        (c : CurlCommand) (u : Nat) (pu : UrlModel) (q : Values) (rest : List GoStr),
      qpTryParams exec o baseline c u pu q (authKey :: rest)
        = qpTryParams exec o baseline c u pu q rest) ∧
    (∀ (exec : GoStr → Option Response) (o : Options) (baseline : Response)
        (ord : Values → List GoStr) (n : Nat) (c : CurlCommand) (i : Nat),
      authKey ∈ queryKeysOfArg (c.args.getD i []) →
      authKey ∈ queryKeysOfArg ((minimizeQueryParams exec o baseline ord n c).args.getD i [])) ∧
    (∀ (exec : GoStr → Option Response) (o : Options) (ord : Values → List GoStr)
        (fuel : Nat) (s : GoStr) (curl : CurlCommand) (baseline : Response),
      o.minimizeHeaders = false → o.minimizeCookies = false →
      ParseCurlCommand (match PreprocessCurlCommand s with
        | .error _ => s | .ok p => p) = .ok curl →
      exec curl.ToString = some baseline →
      ∀ i, authKey ∈ queryKeysOfArg (curl.args.getD i []) →
      ∃ c3 : CurlCommand, MinimizeCurlCommand exec o ord fuel s = .ok c3.ToString ∧
        authKey ∈ queryKeysOfArg (c3.args.getD i [])) := by
  refine ⟨?_, ?_, ?_⟩
  · intro exec o baseline c u pu q rest
    simp [qpTryParams]
  · intro exec o baseline ord n c i hi
    exact minimizeQueryParams_preserves exec o baseline ord n c i hi
  · intro exec o ord fuel s curl baseline hH hC hparse hexec i hi
    unfold MinimizeCurlCommand
    dsimp only
    rw [hparse]
    dsimp only
    rw [hexec]
    dsimp only
    rw [hH, hC]
    simp only [Bool.false_eq_true, if_false]
    by_cases hP : o.minimizeParams = true
    · rw [hP]
      simp only [if_true]
      exact ⟨_, rfl, minimizeQueryParams_preserves exec o baseline ord fuel curl i hi⟩
    · rw [Bool.not_eq_true] at hP
      rw [hP]
      simp only [Bool.false_eq_true, if_false]
      exact ⟨curl, rfl, hi⟩

theorem auth_key_retained_witness :
    ∃ c3 : CurlCommand, MinimizeCurlCommand (fun _ => some ⟨200, gs "ok"⟩)
        ⟨false, false, true, false, false, false, false, false, false⟩
        (fun q => q.map (fun kv => kv.1)) 2 (gs "curl 'http://e?auth_key=1&b=2'")
        = .ok c3.ToString ∧
      authKey ∈ queryKeysOfArg (c3.args.getD 1 []) :=
  auth_key_retained.2.2 (fun _ => some ⟨200, gs "ok"⟩)
    ⟨false, false, true, false, false, false, false, false, false⟩
    (fun q => q.map (fun kv => kv.1)) 2 (gs "curl 'http://e?auth_key=1&b=2'")
    ⟨[gs "curl", gs "'http://e?auth_key=1&b=2'"]⟩ ⟨200, gs "ok"⟩
    rfl rfl rfl rfl 1 (by decide)

theorem auth_key_retained_counterexample :
    ParseCurlCommand (gs "curl -H 'http://e?auth_key=1'")
      = .ok ⟨[gs "curl", gs "-H", gs "'http://e?auth_key=1'"]⟩ ∧
    authKey ∈ (queryParamsOf ⟨[gs "curl", gs "-H", gs "'http://e?auth_key=1'"]⟩).map
      (fun kv => kv.1) ∧
    MinimizeCurlCommand (fun _ => some ⟨200, gs "ok"⟩)
      ⟨true, false, false, false, false, false, false, false, false⟩
      (fun q => q.map (fun kv => kv.1)) 3 (gs "curl -H 'http://e?auth_key=1'")
      = .ok (gs "curl" ++ ['\n']) ∧
    ParseCurlCommand (gs "curl" ++ ['\n']) = .ok ⟨[gs "curl", gs "curl"]⟩ ∧
    authKey ∉ (queryParamsOf ⟨[gs "curl", gs "curl"]⟩).map (fun kv => kv.1) :=
  ⟨rfl, by decide, rfl, rfl, by decide⟩

theorem runTest_congr (o : Options) (baseline : Response) (exec1 exec2 : GoStr → Option Response)
    (h : execAgree o baseline exec1 exec2) (t : GoStr) :
    runTest exec1 o baseline t = runTest exec2 o baseline t := by
  unfold runTest
  rcases h t with he | ⟨h1, r, h2, hcmp⟩
  · rw [he]
  · rw [h1, h2]
    dsimp only
    exact hcmp.symm

theorem testModification_congr (o : Options) (baseline : Response)
    (exec1 exec2 : GoStr → Option Response) (h : execAgree o baseline exec1 exec2)
    (c : CurlCommand) (modify : CurlCommand → Except GoStr CurlCommand) :
    testModification exec1 o baseline c modify = testModification exec2 o baseline c modify := by
  unfold testModification
  cases hp : ParseCurlCommand c.ToString with
  | error e => rfl
  | ok copy =>
    dsimp only
    cases hm : modify copy with
    | error e => rfl
    | ok copy2 =>
      dsimp only
      exact runTest_congr o baseline exec1 exec2 h copy2.ToString
theorem tryHeaderIndices_congr (o : Options) (baseline : Response)
    (exec1 exec2 : GoStr → Option Response) (h : execAgree o baseline exec1 exec2)
    (c : CurlCommand) : ∀ (idx : List Nat),
    tryHeaderIndices exec1 o baseline c idx = tryHeaderIndices exec2 o baseline c idx := by
  intro idx
  induction idx with
  | nil => rfl
  | cons i rest ih =>
    unfold tryHeaderIndices
    rw [testModification_congr o baseline exec1 exec2 h c, ih]

theorem minimizeHeaders_congr (o : Options) (baseline : Response)
    (exec1 exec2 : GoStr → Option Response) (h : execAgree o baseline exec1 exec2) :
    ∀ (n : Nat) (c : CurlCommand),
    minimizeHeaders exec1 o baseline n c = minimizeHeaders exec2 o baseline n c := by
  intro n
  induction n with
  | zero => intro c; rfl
  | succ n ih =>
    intro c
    unfold minimizeHeaders
    dsimp only
    rw [tryHeaderIndices_congr o baseline exec1 exec2 h c]
    by_cases hhi : c.FindHeaderArgs = []
    · rw [if_pos hhi, if_pos hhi]
    · rw [if_neg hhi, if_neg hhi]
      cases h2 : tryHeaderIndices exec2 o baseline c c.FindHeaderArgs with
      | none => rfl
      | some c2 => exact ih c2

theorem testCookieRemoval_congr (o : Options) (baseline : Response)
    (exec1 exec2 : GoStr → Option Response) (h : execAgree o baseline exec1 exec2)
    (c : CurlCommand) (i : Nat) (name : GoStr) (isH : Bool) :
    testCookieRemoval exec1 o baseline c i name isH
      = testCookieRemoval exec2 o baseline c i name isH := by
  unfold testCookieRemoval
  exact testModification_congr o baseline exec1 exec2 h c _

theorem tryCookieEntries_congr (o : Options) (baseline : Response)
    (exec1 exec2 : GoStr → Option Response) (h : execAgree o baseline exec1 exec2)
    (c : CurlCommand) (i : Nat) (isH : Bool) : ∀ (es : List GoStr),
    tryCookieEntries exec1 o baseline c i isH es
      = tryCookieEntries exec2 o baseline c i isH es := by
  intro es
  induction es with
  | nil => rfl
  | cons e rest ih =>
    unfold tryCookieEntries
    dsimp only
    rw [testCookieRemoval_congr o baseline exec1 exec2 h c, ih]

theorem tryCookieIndices_congr (o : Options) (baseline : Response)
    (exec1 exec2 : GoStr → Option Response) (h : execAgree o baseline exec1 exec2)
    (c : CurlCommand) : ∀ (idx : List Nat),
    tryCookieIndices exec1 o baseline c idx = tryCookieIndices exec2 o baseline c idx := by
  intro idx
  induction idx with
  | nil => rfl
  | cons i rest ih =>
    unfold tryCookieIndices
    dsimp only
    rw [testModification_congr o baseline exec1 exec2 h c,
      tryCookieEntries_congr o baseline exec1 exec2 h c, ih]

theorem minimizeCookies_congr (o : Options) (baseline : Response)
    (exec1 exec2 : GoStr → Option Response) (h : execAgree o baseline exec1 exec2) :
    ∀ (n : Nat) (c : CurlCommand),
    minimizeCookies exec1 o baseline n c = minimizeCookies exec2 o baseline n c := by
  intro n
  induction n with
  | zero => intro c; rfl
  | succ n ih =>
    intro c
    unfold minimizeCookies
    dsimp only
    rw [tryCookieIndices_congr o baseline exec1 exec2 h c]
    by_cases hhi : c.FindCookieArgs = []
    · rw [if_pos hhi, if_pos hhi]
    · rw [if_neg hhi, if_neg hhi]
      cases h2 : tryCookieIndices exec2 o baseline c c.FindCookieArgs with
      | none => rfl
      | some c2 => exact ih c2

theorem qpTryParams_congr (o : Options) (baseline : Response)
    (exec1 exec2 : GoStr → Option Response) (h : execAgree o baseline exec1 exec2)
    (c : CurlCommand) (u : Nat) (pu : UrlModel) (q : Values) : ∀ (ps : List GoStr),
    qpTryParams exec1 o baseline c u pu q ps = qpTryParams exec2 o baseline c u pu q ps := by
  intro ps
  induction ps with
  | nil => rfl
  | cons p rest ih =>
    unfold qpTryParams
    dsimp only
    rw [testModification_congr o baseline exec1 exec2 h c, ih]

theorem minimizeQueryParams_congr (o : Options) (baseline : Response)
    (exec1 exec2 : GoStr → Option Response) (h : execAgree o baseline exec1 exec2)
    (ord : Values → List GoStr) : ∀ (n : Nat) (c : CurlCommand),
    minimizeQueryParams exec1 o baseline ord n c
      = minimizeQueryParams exec2 o baseline ord n c := by
  intro n
  induction n with
  | zero => intro c; rfl
  | succ n ih =>
    intro c
    unfold minimizeQueryParams
    cases hf : c.FindURLArg with
    | error e => rfl
    | ok u =>
      dsimp only
      cases hup : urlParseGo (trimQuotesGo (c.args.getD u [])) with
      | none => rfl
      | some pu =>
        dsimp only
        by_cases hrq : pu.rawQuery = []
        · rw [if_pos hrq, if_pos hrq]
        · rw [if_neg hrq, if_neg hrq]
          cases hq : parseQueryGo pu.rawQuery with
          | none => rfl
          | some q =>
            dsimp only
            rw [qpTryParams_congr o baseline exec1 exec2 h c u pu q]
            cases ht : qpTryParams exec2 o baseline c u pu q (ord q) with
            | none => rfl
            | some c2 => exact ih c2

/-- C3: an execution error is fatal exactly on the baseline call: a baseline
error makes the engine return the baseline-failure error with no reduction,
a candidate-call error is read as "not removable" (`runTest` is false), and
a run whose oracle errors on some candidate calls is indistinguishable from
a run whose oracle answers those calls with a rejected response — reduction
continues identically through all three passes. -/
theorem execution_error_policy :
    (∀ (exec : GoStr → Option Response) (o : Options) (baseline : Response) (t : GoStr),
      exec t = none → runTest exec o baseline t = false) ∧
    (∀ (exec : GoStr → Option Response) (o : Options) (ord : Values → List GoStr)
        (fuel : Nat) (s : GoStr) (curl : CurlCommand),
      ParseCurlCommand (match PreprocessCurlCommand s with
        | .error _ => s | .ok p => p) = .ok curl →
      exec curl.ToString = none →
      MinimizeCurlCommand exec o ord fuel s = .error (gs "failed to get baseline response")) ∧
    (∀ (exec1 exec2 : GoStr → Option Response) (o : Options) (ord : Values → List GoStr)
        (fuel : Nat) (s : GoStr) (curl : CurlCommand) (baseline : Response),
      ParseCurlCommand (match PreprocessCurlCommand s with
        | .error _ => s | .ok p => p) = .ok curl →
      exec1 curl.ToString = some baseline →
      exec2 curl.ToString = some baseline →
      execAgree o baseline exec1 exec2 →
      MinimizeCurlCommand exec1 o ord fuel s = MinimizeCurlCommand exec2 o ord fuel s) := by
  refine ⟨?_, ?_, ?_⟩
  · intro exec o baseline t ht
    unfold runTest
    rw [ht]
  · intro exec o ord fuel s curl hparse hexec
    unfold MinimizeCurlCommand
    dsimp only
    rw [hparse]
    dsimp only
    rw [hexec]
  · intro exec1 exec2 o ord fuel s curl baseline hparse hexec1 hexec2 hag
    unfold MinimizeCurlCommand
    dsimp only
    rw [hparse]
    dsimp only
    rw [hexec1, hexec2]
    dsimp only
    rw [minimizeHeaders_congr o baseline exec1 exec2 hag,
      minimizeCookies_congr o baseline exec1 exec2 hag,
      minimizeQueryParams_congr o baseline exec1 exec2 hag ord]

theorem execution_error_policy_witness :
    MinimizeCurlCommand (fun _ => none) ⟨true, false, false, false, false, false, false, false,
        false⟩ (fun q => q.map (fun kv => kv.1)) 2 (gs "curl -H 'a: b' 'http://e'")
      = .error (gs "failed to get baseline response") ∧
    MinimizeCurlCommand
        (fun t => if t = gs "curl 'http://e'" ++ ['\n'] then none else some ⟨200, gs "ok"⟩)
        ⟨true, false, false, false, false, false, false, false, false⟩
        (fun q => q.map (fun kv => kv.1)) 2 (gs "curl -H 'a: b' 'http://e'")
      = MinimizeCurlCommand
        (fun t => if t = gs "curl 'http://e'" ++ ['\n'] then some ⟨200, gs "no"⟩
          else some ⟨200, gs "ok"⟩)
        ⟨true, false, false, false, false, false, false, false, false⟩
        (fun q => q.map (fun kv => kv.1)) 2 (gs "curl -H 'a: b' 'http://e'") := by
  constructor
  · exact execution_error_policy.2.1 (fun _ => none)
      ⟨true, false, false, false, false, false, false, false, false⟩
      (fun q => q.map (fun kv => kv.1)) 2 (gs "curl -H 'a: b' 'http://e'")
      ⟨[gs "curl", gs "-H", gs "'a: b'", gs "'http://e'"]⟩ rfl rfl
  · refine execution_error_policy.2.2
      (fun t => if t = gs "curl 'http://e'" ++ ['\n'] then none else some ⟨200, gs "ok"⟩)
      (fun t => if t = gs "curl 'http://e'" ++ ['\n'] then some ⟨200, gs "no"⟩
        else some ⟨200, gs "ok"⟩)
      ⟨true, false, false, false, false, false, false, false, false⟩
      (fun q => q.map (fun kv => kv.1)) 2 (gs "curl -H 'a: b' 'http://e'")
      ⟨[gs "curl", gs "-H", gs "'a: b'", gs "'http://e'"]⟩ ⟨200, gs "ok"⟩
      rfl (by decide) (by decide) ?_
    intro t
    by_cases ht : t = gs "curl 'http://e'" ++ ['\n']
    · right
      refine ⟨by simp [ht], ⟨200, gs "no"⟩, by simp [ht], by decide⟩
    · left
      simp [ht]

theorem or_flag_congr (f x y : Bool) (hxy : f = true → x = y) : (!f || x) = (!f || y) := by
  cases f
  · rfl
  · simp only [Bool.not_true, Bool.false_or]
    exact hxy rfl

theorem compare_refl (o : Options) (r : Response) : compareResponses o r r = true := by
  unfold compareResponses cmpStatus cmpBody cmpWords cmpLines cmpBytes
  simp

theorem compare_congr (o : Options) (b1 b2 : Response)
    (h : compareResponses o b1 b2 = true) (r : Response) :
    compareResponses o b2 r = compareResponses o b1 r := by
  unfold compareResponses at h ⊢
  dsimp only at h ⊢
  simp only [Bool.and_eq_true] at h
  obtain ⟨⟨⟨⟨h1, h2⟩, h3⟩, h4⟩, h5⟩ := h
  have e1 : o.compareStatusCode = true → cmpStatus b1 b2 = true := by
    intro hf
    rcases Bool.or_eq_true_iff.mp h1 with hx | hx
    · rw [hf] at hx; exact absurd hx (by decide)
    · exact hx
  have e2 : (o.compareBodyContent
      || !(o.compareStatusCode || o.compareBodyContent || o.compareWordCount
        || o.compareLineCount || o.compareByteCount)) = true → cmpBody b1 b2 = true := by
    intro hf
    rcases Bool.or_eq_true_iff.mp h2 with hx | hx
    · rw [hf] at hx; exact absurd hx (by decide)
    · exact hx
  have e3 : o.compareWordCount = true → cmpWords b1 b2 = true := by
    intro hf
    rcases Bool.or_eq_true_iff.mp h3 with hx | hx
    · rw [hf] at hx; exact absurd hx (by decide)
    · exact hx
  have e4 : o.compareLineCount = true → cmpLines b1 b2 = true := by
    intro hf
    rcases Bool.or_eq_true_iff.mp h4 with hx | hx
    · rw [hf] at hx; exact absurd hx (by decide)
    · exact hx
  have e5 : o.compareByteCount = true → cmpBytes b1 b2 = true := by
    intro hf
    rcases Bool.or_eq_true_iff.mp h5 with hx | hx
    · rw [hf] at hx; exact absurd hx (by decide)
    · exact hx
  have c1 : o.compareStatusCode = true → cmpStatus b2 r = cmpStatus b1 r := by
    intro hf
    have := e1 hf
    unfold cmpStatus at this ⊢
    rw [beq_iff_eq] at this
    rw [this]
  have c2 : (o.compareBodyContent
      || !(o.compareStatusCode || o.compareBodyContent || o.compareWordCount
        || o.compareLineCount || o.compareByteCount)) = true → cmpBody b2 r = cmpBody b1 r := by
    intro hf
    have := e2 hf
    unfold cmpBody at this ⊢
    rw [beq_iff_eq] at this
    rw [this]
  have c3 : o.compareWordCount = true → cmpWords b2 r = cmpWords b1 r := by
    intro hf
    have := e3 hf
    unfold cmpWords at this ⊢
    rw [beq_iff_eq] at this
    rw [this]
  have c4 : o.compareLineCount = true → cmpLines b2 r = cmpLines b1 r := by
    intro hf
    have := e4 hf
    unfold cmpLines at this ⊢
    rw [beq_iff_eq] at this
    rw [this]
  have c5 : o.compareByteCount = true → cmpBytes b2 r = cmpBytes b1 r := by
    intro hf
    have := e5 hf
    unfold cmpBytes at this ⊢
    rw [beq_iff_eq] at this
    rw [this]
  rw [or_flag_congr _ _ _ c1, or_flag_congr _ _ _ c2, or_flag_congr _ _ _ c3,
    or_flag_congr _ _ _ c4, or_flag_congr _ _ _ c5]
theorem runTest_base_congr (exec : GoStr → Option Response) (o : Options) (b1 b2 : Response)
    (h : compareResponses o b1 b2 = true) (t : GoStr) :
    runTest exec o b2 t = runTest exec o b1 t := by
  unfold runTest
  cases he : exec t with
  | none => rfl
  | some r =>
    dsimp only
    exact compare_congr o b1 b2 h r

theorem testModification_base_congr (exec : GoStr → Option Response) (o : Options)
    (b1 b2 : Response) (h : compareResponses o b1 b2 = true) (c : CurlCommand)
    (modify : CurlCommand → Except GoStr CurlCommand) :
    testModification exec o b2 c modify = testModification exec o b1 c modify := by
  unfold testModification
  cases hp : ParseCurlCommand c.ToString with
  | error e => rfl
  | ok copy =>
    dsimp only
    cases hm : modify copy with
    | error e => rfl
    | ok copy2 =>
      dsimp only
      exact runTest_base_congr exec o b1 b2 h copy2.ToString

theorem tryHeaderIndices_base_congr (exec : GoStr → Option Response) (o : Options)
    (b1 b2 : Response) (h : compareResponses o b1 b2 = true) (c : CurlCommand) :
    ∀ (idx : List Nat),
    tryHeaderIndices exec o b2 c idx = tryHeaderIndices exec o b1 c idx := by
  intro idx
  induction idx with
  | nil => rfl
  | cons i rest ih =>
    unfold tryHeaderIndices
    rw [testModification_base_congr exec o b1 b2 h c, ih]

theorem minimizeHeaders_base_congr (exec : GoStr → Option Response) (o : Options)
    (b1 b2 : Response) (h : compareResponses o b1 b2 = true) :
    ∀ (n : Nat) (c : CurlCommand),
    minimizeHeaders exec o b2 n c = minimizeHeaders exec o b1 n c := by
  intro n
  induction n with
  | zero => intro c; rfl
  | succ n ih =>
    intro c
    unfold minimizeHeaders
    dsimp only
    rw [tryHeaderIndices_base_congr exec o b1 b2 h c]
    by_cases hhi : c.FindHeaderArgs = []
    · rw [if_pos hhi, if_pos hhi]
    · rw [if_neg hhi, if_neg hhi]
      cases h2 : tryHeaderIndices exec o b1 c c.FindHeaderArgs with
      | none => rfl
      | some c2 => exact ih c2

theorem headerArgs_bounds (c : CurlCommand) (i : Nat) (h : i ∈ c.FindHeaderArgs) :
    1 ≤ i ∧ i + 1 < c.args.length := by
  simp only [CurlCommand.FindHeaderArgs, List.mem_filter, List.mem_range,
    Bool.and_eq_true, decide_eq_true_eq] at h
  exact ⟨h.2.1.1, h.2.2⟩

theorem removeArg_length_lt (c : CurlCommand) (i : Nat) (h1 : 1 ≤ i)
    (h2 : i + 1 < c.args.length) : (c.RemoveArg i).args.length < c.args.length := by
  unfold CurlCommand.RemoveArg
  split
  next hout =>
    simp only [Bool.or_eq_true, decide_eq_true_eq] at hout
    omega
  next hout =>
    split
    next hflag =>
      simp only [List.length_append, List.length_take, List.length_drop]
      omega
    next hflag =>
      simp only [List.length_append, List.length_take, List.length_drop]
      omega

theorem removeArg_mem (c : CurlCommand) (i : Nat) :
    ∀ a ∈ (c.RemoveArg i).args, a ∈ c.args := by
  intro a ha
  unfold CurlCommand.RemoveArg at ha
  split at ha
  next => exact ha
  next =>
    split at ha
    next =>
      rcases List.mem_append.mp ha with h | h
      · exact List.mem_of_mem_take h
      · exact List.mem_of_mem_drop h
    next =>
      rcases List.mem_append.mp ha with h | h
      · exact List.mem_of_mem_take h
      · exact List.mem_of_mem_drop h

theorem tryHeaderIndices_some_eq (exec : GoStr → Option Response) (o : Options)
    (baseline : Response) (c : CurlCommand) : ∀ (idx : List Nat) (c2 : CurlCommand),
    tryHeaderIndices exec o baseline c idx = some c2 →
    ∃ i, i ∈ idx ∧ c2 = c.RemoveArg i ∧
      testModification exec o baseline c (fun cc => .ok (cc.RemoveArg i)) = true := by
  intro idx
  induction idx with
  | nil => intro c2 h; cases h
  | cons i rest ih =>
    intro c2 h
    unfold tryHeaderIndices at h
    split at h
    next =>
      obtain ⟨j, hj, hrest⟩ := ih c2 h
      exact ⟨j, List.mem_cons_of_mem _ hj, hrest⟩
    next =>
      split at h
      next htest =>
        injection h with h2
        exact ⟨i, List.mem_cons_self i rest, h2.symm, htest⟩
      next =>
        obtain ⟨j, hj, hrest⟩ := ih c2 h
        exact ⟨j, List.mem_cons_of_mem _ hj, hrest⟩

theorem minimizeHeaders_fix (exec : GoStr → Option Response) (o : Options)
    (baseline : Response) (c : CurlCommand)
    (h : c.FindHeaderArgs = [] ∨ tryHeaderIndices exec o baseline c c.FindHeaderArgs = none) :
    ∀ m, minimizeHeaders exec o baseline m c = c := by
  intro m
  cases m with
  | zero => rfl
  | succ m =>
    unfold minimizeHeaders
    dsimp only
    rcases h with h | h
    · rw [if_pos h]
    · by_cases hhi : c.FindHeaderArgs = []
      · rw [if_pos hhi]
      · rw [if_neg hhi, h]

theorem minimizeHeaders_terminal (exec : GoStr → Option Response) (o : Options)
    (baseline : Response) : ∀ (f : Nat) (c : CurlCommand), c.args.length ≤ f →
    (minimizeHeaders exec o baseline f c).FindHeaderArgs = [] ∨
      tryHeaderIndices exec o baseline (minimizeHeaders exec o baseline f c)
        (minimizeHeaders exec o baseline f c).FindHeaderArgs = none := by
  intro f
  induction f with
  | zero =>
    intro c hc
    left
    have hargs : c.args = [] := List.length_eq_zero.mp (Nat.le_zero.mp hc)
    show c.FindHeaderArgs = []
    unfold CurlCommand.FindHeaderArgs
    rw [hargs]
    rfl
  | succ f ih =>
    intro c hc
    unfold minimizeHeaders
    dsimp only
    by_cases hhi : c.FindHeaderArgs = []
    · rw [if_pos hhi]
      exact Or.inl hhi
    · rw [if_neg hhi]
      cases htry : tryHeaderIndices exec o baseline c c.FindHeaderArgs with
      | none => exact Or.inr htry
      | some c2 =>
        dsimp only
        apply ih c2
        obtain ⟨i, hi, hc2, _⟩ := tryHeaderIndices_some_eq exec o baseline c _ c2 htry
        obtain ⟨hb1, hb2⟩ := headerArgs_bounds c i hi
        have := removeArg_length_lt c i hb1 (by omega)
        rw [hc2]
        omega

theorem minimizeHeaders_wf (exec : GoStr → Option Response) (o : Options)
    (baseline : Response) : ∀ (f : Nat) (c : CurlCommand),
    (∀ a ∈ c.args, wfTok a = true) →
    ∀ a ∈ (minimizeHeaders exec o baseline f c).args, wfTok a = true := by
  intro f
  induction f with
  | zero => intro c hwf; exact hwf
  | succ f ih =>
    intro c hwf
    unfold minimizeHeaders
    dsimp only
    by_cases hhi : c.FindHeaderArgs = []
    · rw [if_pos hhi]
      exact hwf
    · rw [if_neg hhi]
      cases htry : tryHeaderIndices exec o baseline c c.FindHeaderArgs with
      | none => exact hwf
      | some c2 =>
        dsimp only
        apply ih c2
        obtain ⟨i, hi, hc2, _⟩ := tryHeaderIndices_some_eq exec o baseline c _ c2 htry
        intro a ha
        rw [hc2] at ha
        exact hwf a (removeArg_mem c i a ha)
theorem head_curl_of_head? (l : List GoStr) (h : l.head? = some (gs "curl")) :
    ∃ ts, l = gs "curl" :: ts := by
  cases l with
  | nil => cases h
  | cons a rest =>
    injection h with h2
    exact ⟨rest, by rw [h2]⟩

theorem minimizeHeaders_resp (exec : GoStr → Option Response) (o : Options) (b : Response) :
    ∀ (f : Nat) (c : CurlCommand),
    (∀ a ∈ c.args, wfTok a = true) → (∃ ts, c.args = gs "curl" :: ts) →
    minimizeHeaders exec o b f c = c ∨
      ∃ resp, exec (minimizeHeaders exec o b f c).ToString = some resp ∧
        compareResponses o b resp = true := by
  intro f
  induction f with
  | zero => intro c _ _; exact Or.inl rfl
  | succ f ih =>
    intro c hwf hhead
    unfold minimizeHeaders
    dsimp only
    by_cases hhi : c.FindHeaderArgs = []
    · rw [if_pos hhi]
      exact Or.inl rfl
    · rw [if_neg hhi]
      cases htry : tryHeaderIndices exec o b c c.FindHeaderArgs with
      | none => exact Or.inl rfl
      | some c2 =>
        dsimp only
        obtain ⟨i, hi, hc2, htest⟩ := tryHeaderIndices_some_eq exec o b c _ c2 htry
        obtain ⟨hb1, hb2⟩ := headerArgs_bounds c i hi
        have hlen : 2 ≤ c.args.length := by omega
        have hparse : ParseCurlCommand c.ToString = .ok c := parse_toString c hwf hhead hlen
        unfold testModification at htest
        rw [hparse] at htest
        dsimp only at htest
        unfold runTest at htest
        cases hexec : exec ((c.RemoveArg i).ToString) with
        | none => rw [hexec] at htest; cases htest
        | some resp =>
          rw [hexec] at htest
          dsimp only at htest
          have hwf2 : ∀ a ∈ c2.args, wfTok a = true := by
            intro a ha
            rw [hc2] at ha
            exact hwf a (removeArg_mem c i a ha)
          have hhead2 : ∃ ts, c2.args = gs "curl" :: ts := by
            apply head_curl_of_head?
            rw [hc2, removeArg_head]
            obtain ⟨ts, hts⟩ := hhead
            rw [hts]
            rfl
          rcases ih c2 hwf2 hhead2 with hfix | hresp
          · right
            rw [hfix, hc2]
            exact ⟨resp, hexec, htest⟩
          · right
            exact hresp
theorem tokenize_join_nl (ts : List GoStr) (h : ∀ t ∈ ts, wfTok t = true) (hne : ts ≠ []) :
    tokenizeGo (joinWith (gs " ") ts ++ ['\n']) = some ts := by
  induction ts with
  | nil => cases hne rfl
  | cons t ts ih =>
    have hw := h t (by simp)
    simp only [wfTok, Bool.and_eq_true, Bool.not_eq_true', Option.isNone_iff_eq_none] at hw
    cases ts with
    | nil =>
      show tokenizeGo (t ++ ['\n']) = some [t]
      unfold tokenizeGo
      rw [tokAux_consume t none [] '\n' [] (by decide) hw.1.2 hw.2 (by simpa using hw.1.1)]
      simp [tokAux]
    | cons t2 ts2 =>
      show tokenizeGo (t ++ gs " " ++ joinWith (gs " ") (t2 :: ts2) ++ ['\n']) = _
      unfold tokenizeGo
      rw [List.append_assoc, List.append_assoc]
      have hj : gs " " ++ (joinWith (gs " ") (t2 :: ts2) ++ ['\n'])
          = ' ' :: (joinWith (gs " ") (t2 :: ts2) ++ ['\n']) := rfl
      rw [hj]
      rw [tokAux_consume t none [] ' ' (joinWith (gs " ") (t2 :: ts2) ++ ['\n']) (by decide)
        hw.1.2 hw.2 (by simpa using hw.1.1)]
      have ih2 := ih (fun x hx => h x (List.mem_cons_of_mem t hx)) (by simp)
      unfold tokenizeGo at ih2
      rw [ih2]
      simp

theorem preprocess_toString (c : CurlCommand) (hwf : ∀ t ∈ c.args, wfTok t = true)
    (hne : c.args ≠ []) :
    PreprocessCurlCommand c.ToString = .ok (joinWith (gs " ") c.args) := by
  unfold PreprocessCurlCommand CurlCommand.ToString
  rw [tokenize_join_nl c.args hwf hne]

theorem trimSpace_join_plain (ts : List GoStr) (h : ∀ t ∈ ts, wfTok t = true) (hne : ts ≠ []) :
    trimSpaceGo (joinWith (gs " ") ts) = joinWith (gs " ") ts := by
  have hhead : ∀ c, (joinWith (gs " ") ts).head? = some c → isSepChar c = false := by
    intro c hc
    obtain ⟨t, ht, htc⟩ := join_head ts h hne c hc
    exact wf_head_not_sep t (h t ht) c htc
  have hlast : ∀ c, (joinWith (gs " ") ts).getLast? = some c → isSepChar c = false := by
    intro c hc
    obtain ⟨t, ht, htc⟩ := join_last ts h hne c hc
    have hw := h t ht
    simp only [wfTok, Bool.and_eq_true, Option.isNone_iff_eq_none] at hw
    exact wf_last_not_sep t none rfl hw.1.2 hw.2 c htc
  unfold trimSpaceGo
  rw [dropWhile_eq_self_of_head isSepChar _ hhead, dropEnd_eq_self_of_last isSepChar _ hlast]

theorem parse_join (c : CurlCommand) (hwf : ∀ t ∈ c.args, wfTok t = true)
    (hhead : ∃ ts, c.args = gs "curl" :: ts) (hlen : 2 ≤ c.args.length) :
    ParseCurlCommand (joinWith (gs " ") c.args) = .ok c := by
  obtain ⟨ts, hargs⟩ := hhead
  unfold ParseCurlCommand normalizeCurl
  rw [trimSpace_join_plain c.args hwf (by rw [hargs]; simp)]
  cases ts with
  | nil => rw [hargs] at hlen; simp at hlen
  | cons t2 ts2 =>
    have hpre : (gs "curl ").isPrefixOf (joinWith (gs " ") c.args) = true := by
      rw [hargs]
      apply List.isPrefixOf_iff_prefix.mpr
      refine ⟨joinWith (gs " ") (t2 :: ts2), ?_⟩
      show gs "curl " ++ joinWith (gs " ") (t2 :: ts2)
          = gs "curl" ++ gs " " ++ joinWith (gs " ") (t2 :: ts2)
      rfl
    rw [if_pos hpre]
    rw [tokenize_join c.args hwf (by rw [hargs]; simp)]
    have hcontains : containsSub ((gs "curl").map Char.toLower) (gs "curl") = true := by decide
    rw [hargs]
    simp only [hcontains, if_pos]
    rw [← hargs]
/-- C8 (amended).  Idempotence holds for the header reduction run to
completion: with cookie and query passes disabled, enough fuel for the
header pass to reach a pass that removes nothing, and an output that keeps
a word besides the program name, re-running the engine on its own output
returns that output unchanged. -/
theorem minimize_idempotent :
    ∀ (exec : GoStr → Option Response) (o : Options) (ord : Values → List GoStr)
      (fuel1 : Nat) (s : GoStr) (curl : CurlCommand) (baseline1 : Response)
      (cOut : CurlCommand),
    o.minimizeCookies = false → o.minimizeParams = false →
    ParseCurlCommand (match PreprocessCurlCommand s with
      | .error _ => s | .ok p => p) = .ok curl →
    exec curl.ToString = some baseline1 →
    curl.args.length ≤ fuel1 →
    cOut = (if o.minimizeHeaders then minimizeHeaders exec o baseline1 fuel1 curl else curl) →
    2 ≤ cOut.args.length →
    MinimizeCurlCommand exec o ord fuel1 s = .ok cOut.ToString ∧
    ∀ fuel2, MinimizeCurlCommand exec o ord fuel2 cOut.ToString = .ok cOut.ToString := by
  intro exec o ord fuel1 s curl baseline1 cOut hC hP hparse hexec hfuel hcout hlen
  obtain ⟨hheadc, hwfc⟩ := parse_ok_inv _ curl hparse
  have hrun1 : MinimizeCurlCommand exec o ord fuel1 s = .ok cOut.ToString := by
    unfold MinimizeCurlCommand
    dsimp only
    rw [hparse]
    dsimp only
    rw [hexec]
    dsimp only
    rw [hC, hP]
    simp only [Bool.false_eq_true, if_false]
    rw [← hcout]
  refine ⟨hrun1, ?_⟩
  intro fuel2
  cases hH : o.minimizeHeaders with
  | false =>
    rw [hH] at hcout
    simp only [Bool.false_eq_true, if_false] at hcout
    have hwfO : ∀ a ∈ cOut.args, wfTok a = true := by rw [hcout]; exact hwfc
    have hheadO : ∃ ts, cOut.args = gs "curl" :: ts := by rw [hcout]; exact hheadc
    have hneO : cOut.args ≠ [] := by
      obtain ⟨ts, hts⟩ := hheadO
      rw [hts]
      simp
    unfold MinimizeCurlCommand
    dsimp only
    rw [preprocess_toString cOut hwfO hneO]
    dsimp only
    rw [parse_join cOut hwfO hheadO hlen]
    dsimp only
    rw [hcout, hexec]
    dsimp only
    rw [hC, hP, hH]
    simp only [Bool.false_eq_true, if_false]
  | true =>
    rw [hH] at hcout
    simp only [if_true] at hcout
    have hwfO : ∀ a ∈ cOut.args, wfTok a = true := by
      rw [hcout]
      exact minimizeHeaders_wf exec o baseline1 fuel1 curl hwfc
    have hheadO : ∃ ts, cOut.args = gs "curl" :: ts := by
      apply head_curl_of_head?
      rw [hcout, minimizeHeaders_head]
      obtain ⟨ts, hts⟩ := hheadc
      rw [hts]
      rfl
    have hneO : cOut.args ≠ [] := by
      obtain ⟨ts, hts⟩ := hheadO
      rw [hts]
      simp
    have hterm := minimizeHeaders_terminal exec o baseline1 fuel1 curl hfuel
    rw [← hcout] at hterm
    have hfix := minimizeHeaders_fix exec o baseline1 cOut hterm fuel2
    obtain ⟨resp2, hexec2, hcmp2⟩ : ∃ resp2, exec cOut.ToString = some resp2 ∧
        compareResponses o baseline1 resp2 = true := by
      rcases minimizeHeaders_resp exec o baseline1 fuel1 curl hwfc hheadc with heq | hex
      · rw [← hcout] at heq
        rw [heq]
        exact ⟨baseline1, hexec, compare_refl o baseline1⟩
      · rw [← hcout] at hex
        exact hex
    unfold MinimizeCurlCommand
    dsimp only
    rw [preprocess_toString cOut hwfO hneO]
    dsimp only
    rw [parse_join cOut hwfO hheadO hlen]
    dsimp only
    rw [hexec2]
    dsimp only
    rw [hC, hP, hH]
    simp only [Bool.false_eq_true, if_false, if_true]
    rw [minimizeHeaders_base_congr exec o baseline1 resp2 hcmp2 fuel2 cOut, hfix]

theorem minimize_idempotent_witness :
    MinimizeCurlCommand (fun _ => some ⟨200, gs "ok"⟩)
        ⟨true, false, false, false, false, false, false, false, false⟩
        (fun q => q.map (fun kv => kv.1)) 4 (gs "curl -H 'a: b' 'http://e'")
      = .ok ((CurlCommand.mk [gs "curl", gs "'http://e'"]).ToString) ∧
    ∀ fuel2, MinimizeCurlCommand (fun _ => some ⟨200, gs "ok"⟩)
        ⟨true, false, false, false, false, false, false, false, false⟩
        (fun q => q.map (fun kv => kv.1)) fuel2
        ((CurlCommand.mk [gs "curl", gs "'http://e'"]).ToString)
      = .ok ((CurlCommand.mk [gs "curl", gs "'http://e'"]).ToString) :=
  minimize_idempotent (fun _ => some ⟨200, gs "ok"⟩)
    ⟨true, false, false, false, false, false, false, false, false⟩
    (fun q => q.map (fun kv => kv.1)) 4 (gs "curl -H 'a: b' 'http://e'")
    ⟨[gs "curl", gs "-H", gs "'a: b'", gs "'http://e'"]⟩ ⟨200, gs "ok"⟩
    ⟨[gs "curl", gs "'http://e'"]⟩ rfl rfl rfl rfl (by decide) rfl (by decide)

/-- C8 counterexample: with an oracle whose response depends on the cookie
only while the header is absent, the first full run keeps the header (its
removal is rejected while the cookie is present) and removes the cookie;
running the engine again on that output now accepts the header removal, so
the second run's output differs from the first run's output. -/
theorem minimize_idempotent_counterexample :
    MinimizeCurlCommand (fun t =>
        if containsSub t (gs "c=1") && !containsSub t (gs "x: y") then some ⟨200, gs "bad"⟩
        else some ⟨200, gs "good"⟩)
      ⟨true, true, false, false, false, false, false, false, false⟩
      (fun q => q.map (fun kv => kv.1)) 6 (gs "curl -H 'x: y' -b 'c=1' 'http://e'")
      = .ok (gs "curl -H 'x: y' 'http://e'" ++ ['\n']) ∧
    MinimizeCurlCommand (fun t =>
        if containsSub t (gs "c=1") && !containsSub t (gs "x: y") then some ⟨200, gs "bad"⟩
        else some ⟨200, gs "good"⟩)
      ⟨true, true, false, false, false, false, false, false, false⟩
      (fun q => q.map (fun kv => kv.1)) 6 (gs "curl -H 'x: y' 'http://e'" ++ ['\n'])
      = .ok (gs "curl 'http://e'" ++ ['\n']) ∧
    (gs "curl -H 'x: y' 'http://e'" ++ ['\n'] : GoStr) ≠ gs "curl 'http://e'" ++ ['\n'] :=
  ⟨rfl, rfl, by decide⟩
